import Mathlib

/-!
Verification of the Futoshiki parallel solver core
(`src/common/futoshiki_common.c`, `src/common/parallel.c`, and the solver
entry points).  The C data structures are shallowly embedded:

* the board and the working solution grid (`int [MAX_N][MAX_N]`) become
  total functions `Nat → Nat → Int`; the code only ever reads indices
  `< size`, so the functions' values elsewhere are irrelevant;
* the candidate structure `pc_list` + `pc_lengths` becomes one
  `List Int` per cell, the list's length playing the role of
  `pc_lengths[r][c]` (the C code never reads `pc_list` entries at or
  beyond `pc_lengths`, so the pair is faithfully a list);
* colors and board entries keep the C type `int`, i.e. `Int`, with
  `EMPTY = 0`.
-/

set_option maxHeartbeats 1000000

namespace Futo

/-- `Constraint` from futoshiki_common.h: NO_CONS / GREATER / SMALLER.
`greater` means left/upper > right/lower. -/
inductive Cons where
  | none
  | greater
  | smaller
deriving DecidableEq, Repr

/-- A solution / board grid: `int [MAX_N][MAX_N]`, 0 = EMPTY. -/
abbrev Grid := Nat → Nat → Int

/-- Writing one cell of a grid (`solution[r][c] = v`). -/
def upd2 (g : Grid) (r c : Nat) (v : Int) : Grid :=
  fun r' c' => if r' = r ∧ c' = c then v else g r' c'

/-- The `Futoshiki` struct. `h_cons r c` constrains `(r,c)` against
`(r,c+1)`; `v_cons r c` constrains `(r,c)` against `(r+1,c)`. -/
structure Futoshiki where
  size : Nat
  board : Grid
  h_cons : Nat → Nat → Cons
  v_cons : Nat → Nat → Cons
  cands : Nat → Nat → List Int

/-- One inequality test of `safe` where the neighbor is the
left/upper cell of the edge (the neighbor's current solution value is
`nb`, the candidate color of the current cell is `color`); mirrors the
`col > 0` / `row > 0` blocks of `safe`. -/
def edgeOkL (c : Cons) (nb color : Int) : Bool :=
  match c with
  | .greater => if nb ≠ 0 ∧ nb ≤ color then false else true
  | .smaller => if nb ≠ 0 ∧ nb ≥ color then false else true
  | .none => true

/-- One inequality test of `safe` where the current cell is the
left/upper cell of the edge; mirrors the `col < size-1` / `row < size-1`
blocks of `safe`. -/
def edgeOkR (c : Cons) (color nb : Int) : Bool :=
  match c with
  | .greater => if nb ≠ 0 ∧ color ≤ nb then false else true
  | .smaller => if nb ≠ 0 ∧ color ≥ nb then false else true
  | .none => true

/-- The duplicate scan of `safe`: no other cell of row `row` or column
`col` already holds `color`. -/
def dupFree (p : Futoshiki) (row col : Nat) (sol : Grid) (color : Int) : Bool :=
  (List.range p.size).all fun i =>
    (if i ≠ col ∧ sol row i = color then false else true) &&
    (if i ≠ row ∧ sol i col = color then false else true)

/-- `safe` from futoshiki_common.c lines 47-112.  Note that for a
pre-set cell the function returns `board == color` at once, without
looking at inequalities or duplicates. -/
def safe (p : Futoshiki) (row col : Nat) (sol : Grid) (color : Int) : Bool :=
  if p.board row col ≠ 0 then
    decide (p.board row col = color)
  else
    (if 0 < col then edgeOkL (p.h_cons row (col - 1)) (sol row (col - 1)) color else true) &&
    (if col + 1 < p.size then edgeOkR (p.h_cons row col) color (sol row (col + 1)) else true) &&
    (if 0 < row then edgeOkL (p.v_cons (row - 1) col) (sol (row - 1) col) color else true) &&
    (if row + 1 < p.size then edgeOkR (p.v_cons row col) color (sol (row + 1) col) else true) &&
    dupFree p row col sol color

/-- `has_valid_neighbor` from futoshiki_common.c lines 114-123. -/
def has_valid_neighbor (p : Futoshiki) (row col : Nat) (color : Int)
    (need_greater : Bool) : Bool :=
  (p.cands row col).any fun nc =>
    if need_greater then decide (color < nc) else decide (nc < color)

/-- `satisfies_inequalities` from futoshiki_common.c lines 125-201. -/
def satisfies_inequalities (p : Futoshiki) (row col : Nat) (color : Int) : Bool :=
  (if 0 < col then
    match p.h_cons row (col - 1) with
    | .greater => has_valid_neighbor p row (col - 1) color true
    | .smaller => has_valid_neighbor p row (col - 1) color false
    | .none => true
   else true) &&
  (if col + 1 < p.size then
    match p.h_cons row col with
    | .greater => has_valid_neighbor p row (col + 1) color false
    | .smaller => has_valid_neighbor p row (col + 1) color true
    | .none => true
   else true) &&
  (if 0 < row then
    match p.v_cons (row - 1) col with
    | .greater => has_valid_neighbor p (row - 1) col color true
    | .smaller => has_valid_neighbor p (row - 1) col color false
    | .none => true
   else true) &&
  (if row + 1 < p.size then
    match p.v_cons row col with
    | .greater => has_valid_neighbor p (row + 1) col color false
    | .smaller => has_valid_neighbor p (row + 1) col color true
    | .none => true
   else true)

/-- Replace one cell's candidate list. -/
def setCands (p : Futoshiki) (r c : Nat) (l : List Int) : Futoshiki :=
  { p with cands := fun r' c' => if r' = r ∧ c' = c then l else p.cands r' c' }

/-- `filter_possible_colors` from futoshiki_common.c lines 203-218. -/
def filter_possible_colors (p : Futoshiki) (row col : Nat) : Futoshiki :=
  if p.board row col ≠ 0 then
    setCands p row col [p.board row col]
  else
    setCands p row col
      ((p.cands row col).filter fun color => satisfies_inequalities p row col color)

/-- Remove a color from one cell's candidate list (the compaction loops
inside `process_uniqueness`). -/
def removeFrom (p : Futoshiki) (r c : Nat) (color : Int) : Futoshiki :=
  setCands p r c ((p.cands r c).filter fun x => x != color)

/-- The body of the `for i` loop of `process_uniqueness`: remove
`color` from the rest of the row and of the column. -/
def uniqStep (row col : Nat) (color : Int) (q : Futoshiki) (i : Nat) : Futoshiki :=
  if i ≠ row then
    removeFrom (if i ≠ col then removeFrom q row i color else q) i col color
  else
    if i ≠ col then removeFrom q row i color else q

/-- `process_uniqueness` from futoshiki_common.c lines 220-244.  The
`color` is read once, from the puzzle as it is at entry, exactly as in
the C code. -/
def process_uniqueness (p : Futoshiki) (row col : Nat) : Futoshiki :=
  if (p.cands row col).length = 1 then
    (List.range p.size).foldl (uniqStep row col ((p.cands row col).headI)) p
  else p

/-- The row-major cell traversal `for row … for col …` used by
`compute_pc_lists` and friends. -/
def cellList (n : Nat) : List (Nat × Nat) :=
  (List.range n).flatMap fun r => (List.range n).map fun c => (r, c)

/-- The initialization loop of `compute_pc_lists` (lines 252-270):
pre-set cells get the singleton of their board value, empty cells get
`[1 … size]`.  Cells outside the `size × size` square are untouched,
exactly as in the C code. -/
def initCands (p : Futoshiki) : Futoshiki :=
  { p with cands := fun r c =>
      if r < p.size ∧ c < p.size then
        if p.board r c ≠ 0 then [p.board r c]
        else (List.range p.size).map fun k => ((k + 1 : Nat) : Int)
      else p.cands r c }

/-- The body of the per-cell loop of `compute_pc_lists` (lines 280-287):
snapshot the length, run `filter_possible_colors` then
`process_uniqueness`, and add `before - after` (as C `int` arithmetic,
hence `Int`) to the running removal count. -/
def pcCell (st : Futoshiki × Int) (rc : Nat × Nat) : Futoshiki × Int :=
  let before : Int := ((st.1.cands rc.1 rc.2).length : Int)
  let p1 := filter_possible_colors st.1 rc.1 rc.2
  let p2 := process_uniqueness p1 rc.1 rc.2
  (p2, st.2 + (before - ((p2.cands rc.1 rc.2).length : Int)))

/-- One round of the do/while loop of `compute_pc_lists`. -/
def pcRound (p : Futoshiki) : Futoshiki × Int :=
  (cellList p.size).foldl pcCell (p, 0)

/-- The `changes` test of `compute_pc_lists` (lines 290-296): compare
`pc_lengths` before and after the round.  (The C snapshot covers the full
`MAX_N × MAX_N` array, but entries outside `size × size` are never
written, so comparing the `size × size` square is the same test.) -/
def sameLengths (p q : Futoshiki) : Bool :=
  (cellList p.size).all fun rc =>
    (p.cands rc.1 rc.2).length == (q.cands rc.1 rc.2).length

/-- The do/while loop of `compute_pc_lists`, driven by an explicit fuel.
The loop always terminates: after the first round every pre-set cell's
list is `[]` or `[board value]` depending only on the (static) presence
of a later conflicting pre-set cell, and the other cells' lists only
shrink, so the number of rounds is bounded by the total number of
candidates plus two; `pcFuel` is far above that bound. -/
def pcIter : Nat → Futoshiki → Int → Futoshiki × Int
  | 0, p, acc => (p, acc)
  | fuel + 1, p, acc =>
    if sameLengths p (pcRound p).1 then ((pcRound p).1, acc + (pcRound p).2)
    else pcIter fuel (pcRound p).1 (acc + (pcRound p).2)

/-- Fuel bound for `pcIter`; see the comment there. -/
def pcFuel (n : Nat) : Nat := n ^ 3 + n ^ 2 + 2

/-- `compute_pc_lists` from futoshiki_common.c lines 246-302, returning
the updated puzzle and `total_colors_removed`.  (The local
`initial_colors` counter of the C code is dead: it is never read.) -/
def compute_pc_lists (p : Futoshiki) (use_precoloring : Bool) : Futoshiki × Int :=
  if use_precoloring then pcIter (pcFuel p.size) (initCands p) 0
  else (initCands p, 0)

mutual

/-- `color_g_seq` from futoshiki_common.c lines 334-364, with the
mutated `solution` array made explicit: the function returns the final
grid together with the boolean.  On success the grid is the completed
solution; on failure it is the grid as the backtracking loop left it
(assignments undone, pre-set cells possibly copied from the board). -/
def colorGSeq (p : Futoshiki) (sol : Grid) (row col : Nat) : Bool × Grid :=
  if hr : p.size ≤ row then (true, sol)
  else if hc : p.size ≤ col then colorGSeq p sol (row + 1) 0
  else if p.board row col ≠ 0 then
    colorGSeq p (upd2 sol row col (p.board row col)) row (col + 1)
  else tryCands p sol row col (Nat.lt_of_not_le hc) (p.cands row col)
termination_by (p.size - row, p.size - col, (p.cands row col).length + 1)

/-- The candidate loop of `color_g_seq` (lines 352-361): try each color
of the list in order; on recursive failure reset the cell to EMPTY and
continue with the grid the failed recursion left behind. -/
def tryCands (p : Futoshiki) (sol : Grid) (row col : Nat) (hcol : col < p.size)
    (l : List Int) : Bool × Grid :=
  match l with
  | [] => (false, sol)
  | color :: rest =>
    if safe p row col sol color then
      let res := colorGSeq p (upd2 sol row col color) row (col + 1)
      if res.1 then res
      else tryCands p (upd2 res.2 row col 0) row col hcol rest
    else tryCands p sol row col hcol rest
termination_by (p.size - row, p.size - col, l.length)

end

/-- `WorkUnit` from parallel_work_distribution.h: a `depth` plus the
flat `assignments` array, kept here as a list of `(row, col, color)`
triples of which the C code uses the first `depth`. -/
structure WorkUnit where
  depth : Nat
  assignments : List (Nat × Nat × Int)
deriving DecidableEq, Repr

/-- `generate_work_units_recursive` from parallel.c lines 97-149 with
the scan-ahead while loop folded into the recursion: the function first
advances `(row, col)` to the next cell that is EMPTY both on the board
and in the scratch grid, then either emits the accumulated assignments
as a unit (depth reached or board exhausted) or branches on every safe
candidate color.  The C cap of 100000 units is applied by the caller
`generate_work_units` as a `take`, since the capped C recursion emits
exactly the first 100000 units of the uncapped enumeration. -/
def genAux (p : Futoshiki) (sol : Grid) (curDepth targetDepth : Nat)
    (asg : List (Nat × Nat × Int)) (row col : Nat) : List WorkUnit :=
  if hr : row < p.size then
    if hc : col < p.size then
      if p.board row col = 0 ∧ sol row col = 0 then
        if targetDepth ≤ curDepth then [⟨curDepth, asg⟩]
        else
          (p.cands row col).foldl
            (fun acc color =>
              if safe p row col sol color then
                acc ++ genAux p (upd2 sol row col color) (curDepth + 1) targetDepth
                    (asg ++ [(row, col, color)]) row (col + 1)
              else acc)
            []
      else genAux p sol curDepth targetDepth asg row (col + 1)
    else genAux p sol curDepth targetDepth asg (row + 1) 0
  else [⟨curDepth, asg⟩]
termination_by (p.size - row, p.size - col)

/-- `generate_work_units` from parallel.c lines 151-177 (the allocation
management dropped, the 100000-unit cap kept). -/
def generate_work_units (p : Futoshiki) (depth : Nat) : List WorkUnit :=
  (genAux p p.board 0 depth [] 0 0).take 100000

/-- `apply_work_unit` from parallel.c lines 179-188: board copy plus the
first `depth` assignments. -/
def apply_work_unit (p : Futoshiki) (u : WorkUnit) : Grid :=
  (u.assignments.take u.depth).foldl (fun s a => upd2 s a.1 a.2.1 a.2.2) p.board

/-- `get_continuation_point` from parallel.c lines 190-198. -/
def get_continuation_point (u : WorkUnit) : Nat × Nat :=
  if 0 < u.depth then
    let a := u.assignments.getD (u.depth - 1) (0, 0, 0)
    (a.1, a.2.1 + 1)
  else (0, 0)

/-- `find_empty_cells` from parallel.c lines 6-18 (row-major). -/
def find_empty_cells (p : Futoshiki) : List (Nat × Nat) :=
  (cellList p.size).filter fun rc => p.board rc.1 rc.2 == 0

/-- `count_valid_assignments_recursive` from parallel.c lines 20-44,
with `(current_cell_idx, target_depth, num_empty_cells)` replaced by the
remaining cell list and the remaining depth budget.  The count is kept
exact (`Nat`); the C `long long` does not overflow on the inputs the
program is used with. -/
def count_valid (p : Futoshiki) (sol : Grid) : List (Nat × Nat) → Nat → Nat
  | _, 0 => 1
  | [], _ + 1 => 1
  | rc :: rest, d + 1 =>
    (p.cands rc.1 rc.2).foldl
      (fun acc color =>
        if safe p rc.1 rc.2 sol color then
          acc + count_valid p (upd2 sol rc.1 rc.2 color) rest d
        else acc)
      0

/-- The `for (d = 1; d <= num_empty; d++)` loop of
`calculate_distribution_depth`: return `d` as soon as the exact count
exceeds `num_workers`, otherwise continue; `fuel` is the number of
depths still to try after `d`. -/
def cddGo (p : Futoshiki) (empty : List (Nat × Nat)) (num_workers : Int) :
    Nat → Nat → Nat
  | d, fuel =>
    if num_workers < (count_valid p p.board empty d : Int) then d
    else
      match fuel with
      | 0 => d
      | fuel + 1 => cddGo p empty num_workers (d + 1) fuel

/-- `calculate_distribution_depth` from parallel.c lines 46-95. -/
def calculate_distribution_depth (p : Futoshiki) (num_workers : Int) : Nat :=
  if num_workers ≤ 0 then 0
  else
    let empty := find_empty_cells p
    if empty.length = 0 then 0
    else cddGo p empty num_workers 1 (empty.length - 1)

/-- The size-dependent depth cap described by the spec for the depth
calibrator (`max_depth` in `calculate_task_depth`,
src/openmp/futoshiki_omp.c lines 31-34): 5 for size ≤ 9, 4 for sizes
10-15, 3 above. -/
def spec_max_depth (n : Nat) : Nat :=
  if n ≤ 9 then 5 else if n ≤ 15 then 4 else 3

/-- Exit code of `main` in src/sequential/main_seq.c: 1 on missing
arguments, otherwise 0 — the `found_solution` flag is ignored. -/
def main_seq_exit (argc : Nat) (found_solution : Bool) : Int :=
  if argc < 2 then 1 else 0

/-- Exit code of `main` in src/openmp/main_omp.c: 1 on missing arguments
or an invalid `-t` value, otherwise 0 — the `found_solution` flag is
ignored. -/
def main_omp_exit (argc : Nat) (valid_thread_arg : Bool) (found_solution : Bool) : Int :=
  if argc < 2 then 1 else if ¬valid_thread_arg then 1 else 0

/-- Exit code of `main` in src/mpi/main_mpi.c (and main_hybrid.c):
1 on missing arguments, else `found_solution ? 0 : 1`. -/
def main_mpi_exit (argc : Nat) (found_solution : Bool) : Int :=
  if argc < 2 then 1 else if found_solution then 0 else 1

/-! ### Spec-side predicates -/

/-- What an inequality edge demands of two concrete values: the first
argument is the left/upper cell of the edge. -/
def consHolds (c : Cons) (a b : Int) : Prop :=
  match c with
  | .greater => b < a
  | .smaller => a < b
  | .none => True

instance (c : Cons) (a b : Int) : Decidable (consHolds c a b) := by
  unfold consHolds; cases c <;> infer_instance

/-- Condition (a) of the spec's description of `safe`: a pre-set cell
only accepts its own value. -/
def presetCond (p : Futoshiki) (r c : Nat) (color : Int) : Prop :=
  p.board r c ≠ 0 → p.board r c = color

/-- Condition (b): each of the four adjacent cells, when already colored
in the grid, satisfies its inequality edge against `color`. -/
def neighborCond (p : Futoshiki) (r c : Nat) (sol : Grid) (color : Int) : Prop :=
  (0 < c → sol r (c - 1) ≠ 0 → consHolds (p.h_cons r (c - 1)) (sol r (c - 1)) color) ∧
  (c + 1 < p.size → sol r (c + 1) ≠ 0 → consHolds (p.h_cons r c) color (sol r (c + 1))) ∧
  (0 < r → sol (r - 1) c ≠ 0 → consHolds (p.v_cons (r - 1) c) (sol (r - 1) c) color) ∧
  (r + 1 < p.size → sol (r + 1) c ≠ 0 → consHolds (p.v_cons r c) color (sol (r + 1) c))

/-- Condition (c): no other cell of row `r` or column `c` already holds
`color`. -/
def noDupCond (p : Futoshiki) (r c : Nat) (sol : Grid) (color : Int) : Prop :=
  ∀ i < p.size, (i ≠ c → sol r i ≠ color) ∧ (i ≠ r → sol i c ≠ color)

/-- A full grid satisfying every row/column uniqueness constraint and
every inequality constraint, and equal to the board on pre-set cells. -/
def validGrid (p : Futoshiki) (g : Grid) : Prop :=
  (∀ r c c', r < p.size → c < p.size → c' < p.size → c ≠ c' → g r c ≠ g r c') ∧
  (∀ r r' c, r < p.size → r' < p.size → c < p.size → r ≠ r' → g r c ≠ g r' c) ∧
  (∀ r c, r < p.size → c + 1 < p.size → consHolds (p.h_cons r c) (g r c) (g r (c + 1))) ∧
  (∀ r c, r + 1 < p.size → c < p.size → consHolds (p.v_cons r c) (g r c) (g (r + 1) c)) ∧
  (∀ r c, r < p.size → c < p.size → p.board r c ≠ 0 → g r c = p.board r c)

/-- A solution in the sense of spec §3: a full grid of colors in
`1..size` that is valid for the puzzle. -/
def IsSolution (p : Futoshiki) (g : Grid) : Prop :=
  (∀ r c, r < p.size → c < p.size → 1 ≤ g r c ∧ g r c ≤ (p.size : Int)) ∧ validGrid p g

def Satisfiable (p : Futoshiki) : Prop := ∃ g, IsSolution p g

/-- The board's pre-set cells are mutually consistent: no repeated value
in a row or column, and every inequality edge between two pre-set cells
holds. -/
def presetsOK (p : Futoshiki) : Prop :=
  (∀ r c c', r < p.size → c < p.size → c' < p.size → c ≠ c' →
    p.board r c ≠ 0 → p.board r c' ≠ 0 → p.board r c ≠ p.board r c') ∧
  (∀ r r' c, r < p.size → r' < p.size → c < p.size → r ≠ r' →
    p.board r c ≠ 0 → p.board r' c ≠ 0 → p.board r c ≠ p.board r' c) ∧
  (∀ r c, r < p.size → c + 1 < p.size → p.board r c ≠ 0 → p.board r (c + 1) ≠ 0 →
    consHolds (p.h_cons r c) (p.board r c) (p.board r (c + 1))) ∧
  (∀ r c, r + 1 < p.size → c < p.size → p.board r c ≠ 0 → p.board (r + 1) c ≠ 0 →
    consHolds (p.v_cons r c) (p.board r c) (p.board (r + 1) c))

/-! ### Characterization of `safe` (claim C4) -/

theorem edgeOkL_iff (c : Cons) (nb color : Int) :
    edgeOkL c nb color = true ↔ (nb ≠ 0 → consHolds c nb color) := by
  cases c <;> simp [edgeOkL, consHolds] <;> omega

theorem edgeOkR_iff (c : Cons) (color nb : Int) :
    edgeOkR c color nb = true ↔ (nb ≠ 0 → consHolds c color nb) := by
  cases c <;> simp [edgeOkR, consHolds] <;> omega

theorem dupFree_iff (p : Futoshiki) (row col : Nat) (sol : Grid) (color : Int) :
    dupFree p row col sol color = true ↔ noDupCond p row col sol color := by
  simp only [dupFree, noDupCond, List.all_eq_true, List.mem_range, Bool.and_eq_true]
  constructor
  · intro h i hi
    have := h i hi
    constructor
    · intro hic
      by_cases hv : sol row i = color
      · simp [hic, hv] at this
      · exact hv
    · intro hir
      by_cases hv : sol i col = color
      · simp [hir, hv] at this
      · exact hv
  · intro h i hi
    have := h i hi
    constructor
    · by_cases hic : i ≠ col ∧ sol row i = color
      · exact absurd hic.2 (this.1 hic.1)
      · simp [hic]
    · by_cases hir : i ≠ row ∧ sol i col = color
      · exact absurd hir.2 (this.2 hir.1)
      · simp [hir]

theorem safe_true_iff (p : Futoshiki) (row col : Nat) (sol : Grid)
    (color : Int) :
    safe p row col sol color = true ↔
      (if p.board row col ≠ 0 then p.board row col = color
       else neighborCond p row col sol color ∧ noDupCond p row col sol color) := by
  unfold safe
  by_cases hb : p.board row col ≠ 0
  · simp [hb]
  · simp only [hb, if_false, if_neg, Bool.and_eq_true, neighborCond]
    rw [dupFree_iff]
    constructor
    · rintro ⟨⟨⟨⟨h1, h2⟩, h3⟩, h4⟩, h5⟩
      refine ⟨⟨?_, ?_, ?_, ?_⟩, h5⟩
      · intro hc
        rw [if_pos hc] at h1
        exact (edgeOkL_iff _ _ _).mp h1
      · intro hc
        rw [if_pos hc] at h2
        exact (edgeOkR_iff _ _ _).mp h2
      · intro hr
        rw [if_pos hr] at h3
        exact (edgeOkL_iff _ _ _).mp h3
      · intro hr
        rw [if_pos hr] at h4
        exact (edgeOkR_iff _ _ _).mp h4
    · rintro ⟨⟨h1, h2, h3, h4⟩, h5⟩
      refine ⟨⟨⟨⟨?_, ?_⟩, ?_⟩, ?_⟩, h5⟩
      · by_cases hc : 0 < col
        · rw [if_pos hc]; exact (edgeOkL_iff _ _ _).mpr (h1 hc)
        · rw [if_neg hc]
      · by_cases hc : col + 1 < p.size
        · rw [if_pos hc]; exact (edgeOkR_iff _ _ _).mpr (h2 hc)
        · rw [if_neg hc]
      · by_cases hr : 0 < row
        · rw [if_pos hr]; exact (edgeOkL_iff _ _ _).mpr (h3 hr)
        · rw [if_neg hr]
      · by_cases hr : row + 1 < p.size
        · rw [if_pos hr]; exact (edgeOkR_iff _ _ _).mpr (h4 hr)
        · rw [if_neg hr]

/-- Claim C4, amended.  `safe` is *not* the conjunction of the three
conditions (a), (b), (c): for a pre-set cell it returns
`board[r][c] == color` at once and skips (b) and (c) entirely.  For a
cell that is empty on the board it is exactly (b) ∧ (c). -/
theorem C4_safe_characterization (p : Futoshiki) (row col : Nat) (sol : Grid)
    (color : Int) :
    safe p row col sol color = true ↔
      (if p.board row col ≠ 0 then p.board row col = color
       else neighborCond p row col sol color ∧ noDupCond p row col sol color) :=
  safe_true_iff p row col sol color

/-- A 2×2 puzzle whose only pre-set cell is `board[0][0] = 1`. -/
def puzC4 : Futoshiki :=
  { size := 2
    board := fun r c => if r = 0 ∧ c = 0 then 1 else 0
    h_cons := fun _ _ => Cons.none
    v_cons := fun _ _ => Cons.none
    cands := fun _ _ => [] }

/-- A partial grid that already holds color 1 at `(0,1)`. -/
def solC4 : Grid := fun r c => if r = 0 ∧ c = 1 then 1 else 0

/-- Claim C4 as stated is false: at the pre-set cell `(0,0)` of `puzC4`
with the grid `solC4`, `safe` returns true (it only compares the pre-set
value) although condition (c) fails — `(0,1)` already holds color 1. -/
theorem C4_counterexample :
    safe puzC4 0 0 solC4 1 = true ∧
      ¬ (presetCond puzC4 0 0 1 ∧ neighborCond puzC4 0 0 solC4 1 ∧
          noDupCond puzC4 0 0 solC4 1) := by
  constructor
  · decide
  · intro h
    have := (h.2.2 1 (by decide)).1 (by decide)
    exact this (by decide)

/-! ### Exit codes (claim C8) -/

/-- Claim C8 as stated is false: the sequential and OpenMP mains return
exit code 0 even when no solution was found. -/
theorem C8_counterexample :
    main_seq_exit 2 false = 0 ∧ main_omp_exit 2 true false = 0 ∧
      main_seq_exit 2 false ≠ 1 := by
  refine ⟨by decide, by decide, by decide⟩

/-- Claim C8, amended: only the MPI (and hybrid) main honors the exit
code contract `found ? 0 : 1`; the sequential and OpenMP mains return 1
on argument errors but 0 after any completed solve, whether or not a
solution was found. -/
theorem C8_exit_codes (argc : Nat) (found : Bool) :
    (argc < 2 →
      main_seq_exit argc found = 1 ∧ main_omp_exit argc true found = 1 ∧
        main_mpi_exit argc found = 1) ∧
    (2 ≤ argc →
      main_mpi_exit argc found = (if found then 0 else 1) ∧
        main_seq_exit argc found = 0 ∧
        main_omp_exit argc true found = 0 ∧
        main_omp_exit argc false found = 1) := by
  constructor
  · intro hlt
    unfold main_seq_exit main_omp_exit main_mpi_exit
    simp [hlt]
  · intro hge
    have h2 : ¬ argc < 2 := by omega
    unfold main_seq_exit main_omp_exit main_mpi_exit
    simp [h2]

theorem C8_witness :
    main_mpi_exit 2 false = 1 ∧ main_seq_exit 2 false = 0 := by
  have h := (C8_exit_codes 2 false).2 (by decide)
  exact ⟨h.1.trans (by decide), h.2.1⟩

/-! ### Depth calibrator (claim C5) -/

/-- A 3×3 puzzle with every cell empty and full candidate lists. -/
def puzC5 : Futoshiki :=
  { size := 3
    board := fun _ _ => 0
    h_cons := fun _ _ => Cons.none
    v_cons := fun _ _ => Cons.none
    cands := fun _ _ => [1, 2, 3] }

/-- Claim C5 as stated is false: `calculate_distribution_depth` has no
size-dependent depth cap.  On the all-empty 3×3 puzzle with target 1000
it iterates to depth 9 (all nine empty cells, count 12 ≤ 1000
throughout), exceeding the claimed cap `min 9 (max_depth 3) = 5`. -/
theorem C5_counterexample :
    calculate_distribution_depth puzC5 1000 = 9 ∧
      ¬ calculate_distribution_depth puzC5 1000 ≤
          min (find_empty_cells puzC5).length (spec_max_depth puzC5.size) := by
  constructor
  · decide
  · decide

theorem cddGo_spec (p : Futoshiki) (empty : List (Nat × Nat)) (W : Int) :
    ∀ fuel d,
      d ≤ cddGo p empty W d fuel ∧
      cddGo p empty W d fuel ≤ d + fuel ∧
      (W < (count_valid p p.board empty (cddGo p empty W d fuel) : Int) ∨
        cddGo p empty W d fuel = d + fuel) ∧
      ∀ d', d ≤ d' → d' < cddGo p empty W d fuel →
        (count_valid p p.board empty d' : Int) ≤ W := by
  intro fuel
  induction fuel with
  | zero =>
    intro d
    rw [cddGo]
    by_cases h : W < (count_valid p p.board empty d : Int)
    · simp only [if_pos h]
      exact ⟨le_refl _, by omega, Or.inl h, fun d' h1 h2 => absurd h2 (by omega)⟩
    · simp only [if_neg h]
      exact ⟨le_refl _, by omega, Or.inr rfl, fun d' h1 h2 => absurd h2 (by omega)⟩
  | succ fuel ih =>
    intro d
    rw [cddGo]
    by_cases h : W < (count_valid p p.board empty d : Int)
    · simp only [if_pos h]
      exact ⟨le_refl _, by omega, Or.inl h, fun d' h1 h2 => absurd h2 (by omega)⟩
    · simp only [if_neg h]
      obtain ⟨ih1, ih2, ih3, ih4⟩ := ih (d + 1)
      refine ⟨by omega, by omega, ?_, ?_⟩
      · rcases ih3 with ih3 | ih3
        · exact Or.inl ih3
        · exact Or.inr (by omega)
      · intro d' h1 h2
        by_cases hd : d' = d
        · subst hd
          exact le_of_not_lt h
        · exact ih4 d' (by omega) h2

/-- Claim C5, amended: `calculate_distribution_depth` iterates
`d = 1 … number_of_empty_cells` with *no* size-dependent cap, computes
the exact `safe`-consistent prefix count at each depth, and returns the
smallest `d` whose count exceeds `num_workers` — or the number of empty
cells when no depth's count does; it returns 0 when the puzzle has no
empty cells (or `num_workers ≤ 0`). -/
theorem C5_depth_characterization (p : Futoshiki) (W : Int) (hW : 1 ≤ W) :
    ((find_empty_cells p).length = 0 → calculate_distribution_depth p W = 0) ∧
    ((find_empty_cells p).length ≠ 0 →
      1 ≤ calculate_distribution_depth p W ∧
      calculate_distribution_depth p W ≤ (find_empty_cells p).length ∧
      (W < (count_valid p p.board (find_empty_cells p)
              (calculate_distribution_depth p W) : Int) ∨
        calculate_distribution_depth p W = (find_empty_cells p).length) ∧
      ∀ d, 1 ≤ d → d < calculate_distribution_depth p W →
        (count_valid p p.board (find_empty_cells p) d : Int) ≤ W) := by
  have hW0 : ¬ W ≤ 0 := by omega
  constructor
  · intro h
    unfold calculate_distribution_depth
    simp [hW0, h]
  · intro h
    unfold calculate_distribution_depth
    simp only [hW0, if_false, h, if_neg h]
    obtain ⟨h1, h2, h3, h4⟩ := cddGo_spec p (find_empty_cells p) W
        ((find_empty_cells p).length - 1) 1
    refine ⟨h1, by omega, ?_, fun d hd1 hd2 => h4 d hd1 hd2⟩
    rcases h3 with h3 | h3
    · exact Or.inl h3
    · exact Or.inr (by omega)

theorem C5_witness :
    1 ≤ calculate_distribution_depth puzC5 1 ∧
      calculate_distribution_depth puzC5 1 ≤ (find_empty_cells puzC5).length := by
  have h := (C5_depth_characterization puzC5 1 (by decide)).2 (by decide)
  exact ⟨h.1, h.2.1⟩

/-! ### Infrastructure for the pre-coloring pass (claims C6, C7) -/

theorem foldl_preserve {α β : Type} (P : β → Prop) (f : β → α → β) (l : List α) (b : β)
    (hf : ∀ b a, P b → P (f b a)) (hb : P b) : P (l.foldl f b) := by
  induction l generalizing b with
  | nil => exact hb
  | cons a l ih => exact ih _ (hf _ _ hb)

theorem foldl_preserve_mem {α β : Type} (P : β → Prop) (f : β → α → β) (l : List α)
    (b : β) (hf : ∀ b a, a ∈ l → P b → P (f b a)) (hb : P b) : P (l.foldl f b) := by
  induction l generalizing b with
  | nil => exact hb
  | cons a l ih =>
    exact ih _ (fun b' a' ha' hb' => hf b' a' (List.mem_cons_of_mem _ ha') hb')
      (hf b a (List.mem_cons_self _ _) hb)

theorem mem_cellList {n : Nat} {rc : Nat × Nat} :
    rc ∈ cellList n ↔ rc.1 < n ∧ rc.2 < n := by
  obtain ⟨r, c⟩ := rc
  simp only [cellList, List.mem_flatMap, List.mem_map, List.mem_range]
  constructor
  · rintro ⟨a, ha, b, hb, heq⟩
    injection heq with e1 e2
    subst e1; subst e2
    exact ⟨ha, hb⟩
  · rintro ⟨h1, h2⟩
    exact ⟨r, h1, c, h2, rfl⟩

/-- The non-candidate fields of a puzzle. -/
def sameStatic (q p : Futoshiki) : Prop :=
  q.size = p.size ∧ q.board = p.board ∧ q.h_cons = p.h_cons ∧ q.v_cons = p.v_cons

theorem sameStatic_refl (p : Futoshiki) : sameStatic p p := ⟨rfl, rfl, rfl, rfl⟩

theorem sameStatic_trans {a b c : Futoshiki} (h1 : sameStatic a b) (h2 : sameStatic b c) :
    sameStatic a c :=
  ⟨h1.1.trans h2.1, h1.2.1.trans h2.2.1, h1.2.2.1.trans h2.2.2.1, h1.2.2.2.trans h2.2.2.2⟩

theorem setCands_static (q : Futoshiki) (r c : Nat) (l : List Int) :
    sameStatic (setCands q r c l) q := ⟨rfl, rfl, rfl, rfl⟩

theorem filter_static (q : Futoshiki) (r c : Nat) :
    sameStatic (filter_possible_colors q r c) q := by
  unfold filter_possible_colors
  split <;> exact setCands_static _ _ _ _

theorem removeFrom_static (q : Futoshiki) (r c : Nat) (color : Int) :
    sameStatic (removeFrom q r c color) q := setCands_static _ _ _ _

theorem uniqStep_static (row col : Nat) (color : Int) (q : Futoshiki) (i : Nat) :
    sameStatic (uniqStep row col color q i) q := by
  unfold uniqStep
  split <;> split <;>
    first
      | exact sameStatic_trans (removeFrom_static _ _ _ _) (removeFrom_static _ _ _ _)
      | exact removeFrom_static _ _ _ _
      | exact sameStatic_refl q

theorem process_uniqueness_static (q : Futoshiki) (row col : Nat) :
    sameStatic (process_uniqueness q row col) q := by
  unfold process_uniqueness
  split
  · exact foldl_preserve (fun x => sameStatic x q) _ _ _
      (fun x i hx => sameStatic_trans (uniqStep_static _ _ _ _ _) hx)
      (sameStatic_refl q)
  · exact sameStatic_refl q

/-- `pcCell` with its local definitions expanded. -/
theorem pcCell_eq (st : Futoshiki × Int) (rc : Nat × Nat) :
    pcCell st rc =
      (process_uniqueness (filter_possible_colors st.1 rc.1 rc.2) rc.1 rc.2,
       st.2 + (((st.1.cands rc.1 rc.2).length : Int) -
         (((process_uniqueness (filter_possible_colors st.1 rc.1 rc.2) rc.1 rc.2).cands
             rc.1 rc.2).length : Int))) := rfl

theorem pcCell_static (st : Futoshiki × Int) (rc : Nat × Nat) :
    sameStatic (pcCell st rc).1 st.1 := by
  rw [pcCell_eq]
  exact sameStatic_trans (process_uniqueness_static _ _ _) (filter_static _ _ _)

theorem pcRound_static (q : Futoshiki) : sameStatic (pcRound q).1 q := by
  unfold pcRound
  exact foldl_preserve (fun st : Futoshiki × Int => sameStatic st.1 q) pcCell _ _
    (fun st rc hst => sameStatic_trans (pcCell_static st rc) hst)
    (sameStatic_refl q)

theorem pcIter_static : ∀ (fuel : Nat) (q : Futoshiki) (acc : Int),
    sameStatic (pcIter fuel q acc).1 q := by
  intro fuel
  induction fuel with
  | zero => intro q acc; exact sameStatic_refl q
  | succ fuel ih =>
    intro q acc
    rw [pcIter]
    split
    · exact pcRound_static q
    · exact sameStatic_trans (ih _ _) (pcRound_static q)

theorem initCands_static (p : Futoshiki) : sameStatic (initCands p) p := ⟨rfl, rfl, rfl, rfl⟩

theorem compute_pc_lists_true (p : Futoshiki) :
    compute_pc_lists p true = pcIter (pcFuel p.size) (initCands p) 0 := by
  simp [compute_pc_lists]

theorem compute_static (p : Futoshiki) :
    sameStatic (compute_pc_lists p true).1 p := by
  rw [compute_pc_lists_true]
  exact sameStatic_trans (pcIter_static _ _ _) (initCands_static p)

theorem setCands_cands_ne {q : Futoshiki} {a b r c : Nat} {l : List Int}
    (h : ¬(r = a ∧ c = b)) : (setCands q a b l).cands r c = q.cands r c := by
  simp [setCands, h]

theorem filter_cands_ne {q : Futoshiki} {row col r c : Nat}
    (h : ¬(r = row ∧ c = col)) :
    (filter_possible_colors q row col).cands r c = q.cands r c := by
  unfold filter_possible_colors
  split <;> exact setCands_cands_ne h

theorem removeFrom_cands_ne {q : Futoshiki} {a b r c : Nat} {color : Int}
    (h : ¬(r = a ∧ c = b)) : (removeFrom q a b color).cands r c = q.cands r c :=
  setCands_cands_ne h

theorem uniqStep_cands_ne {q : Futoshiki} {row col i r c : Nat} {color : Int}
    (h1 : ¬(r = row ∧ c = i)) (h2 : ¬(r = i ∧ c = col)) :
    (uniqStep row col color q i).cands r c = q.cands r c := by
  unfold uniqStep
  by_cases hir : i ≠ row
  · rw [if_pos hir, removeFrom_cands_ne h2]
    by_cases hic : i ≠ col
    · rw [if_pos hic, removeFrom_cands_ne h1]
    · rw [if_neg hic]
  · rw [if_neg hir]
    by_cases hic : i ≠ col
    · rw [if_pos hic, removeFrom_cands_ne h1]
    · rw [if_neg hic]

/-- `process_uniqueness` never touches the candidate list of the cell it
is processing: it only removes colors from the *other* cells of the row
and column. -/
theorem uniqStep_self (row col : Nat) (color : Int) (q : Futoshiki) (i : Nat) :
    (uniqStep row col color q i).cands row col = q.cands row col := by
  unfold uniqStep
  by_cases hir : i ≠ row
  · rw [if_pos hir, removeFrom_cands_ne (by rintro ⟨rfl, -⟩; exact hir rfl)]
    by_cases hic : i ≠ col
    · rw [if_pos hic, removeFrom_cands_ne (by rintro ⟨-, rfl⟩; exact hic rfl)]
    · rw [if_neg hic]
  · rw [if_neg hir]
    by_cases hic : i ≠ col
    · rw [if_pos hic, removeFrom_cands_ne (by rintro ⟨-, rfl⟩; exact hic rfl)]
    · rw [if_neg hic]

theorem process_uniqueness_self (q : Futoshiki) (row col : Nat) :
    (process_uniqueness q row col).cands row col = q.cands row col := by
  unfold process_uniqueness
  split
  · exact foldl_preserve (fun x : Futoshiki => x.cands row col = q.cands row col) _ _ _
      (fun x i hx => (uniqStep_self row col _ x i).trans hx)
      rfl
  · rfl

theorem process_uniqueness_cands_out {q : Futoshiki} {row col r c : Nat}
    (hrow : row < q.size) (hcol : col < q.size) (h : ¬(r < q.size ∧ c < q.size)) :
    (process_uniqueness q row col).cands r c = q.cands r c := by
  unfold process_uniqueness
  split
  · exact foldl_preserve_mem (fun x : Futoshiki => x.cands r c = q.cands r c) _ _ _
      (fun x i hi hx => by
        have hi' : i < q.size := List.mem_range.mp hi
        exact (uniqStep_cands_ne (by rintro ⟨rfl, rfl⟩; exact h ⟨hrow, hi'⟩)
          (by rintro ⟨rfl, rfl⟩; exact h ⟨hi', hcol⟩)).trans hx)
      rfl
  · rfl

theorem pcRound_cands_out {q : Futoshiki} {r c : Nat}
    (h : ¬(r < q.size ∧ c < q.size)) : (pcRound q).1.cands r c = q.cands r c := by
  unfold pcRound
  have := foldl_preserve_mem
    (fun st : Futoshiki × Int => st.1.cands r c = q.cands r c ∧ sameStatic st.1 q)
    pcCell (cellList q.size) (q, 0)
    (fun st rc hrc hst => by
      have hin := mem_cellList.mp hrc
      constructor
      · rw [pcCell_eq]
        dsimp only
        have hsz : (filter_possible_colors st.1 rc.1 rc.2).size = st.1.size :=
          (filter_static st.1 rc.1 rc.2).1
        rw [process_uniqueness_cands_out (by rw [hsz, hst.2.1]; exact hin.1)
              (by rw [hsz, hst.2.1]; exact hin.2)
              (by rw [hsz, hst.2.1]; exact h)]
        rw [filter_cands_ne (by
          rintro ⟨rfl, rfl⟩
          exact h ⟨hin.1, hin.2⟩)]
        exact hst.1
      · exact sameStatic_trans (pcCell_static st rc) hst.2)
    ⟨rfl, sameStatic_refl q⟩
  exact this.1

theorem pcIter_cands_out : ∀ (fuel : Nat) (q : Futoshiki) (acc : Int) (r c : Nat),
    ¬(r < q.size ∧ c < q.size) → (pcIter fuel q acc).1.cands r c = q.cands r c := by
  intro fuel
  induction fuel with
  | zero => intro q acc r c h; rfl
  | succ fuel ih =>
    intro q acc r c h
    rw [pcIter]
    split
    · exact pcRound_cands_out h
    · have hsz : (pcRound q).1.size = q.size := (pcRound_static q).1
      rw [ih _ _ _ _ (by rw [hsz]; exact h)]
      exact pcRound_cands_out h

theorem initCands_cands (p : Futoshiki) (r c : Nat) :
    (initCands p).cands r c =
      if r < p.size ∧ c < p.size then
        if p.board r c ≠ 0 then [p.board r c]
        else (List.range p.size).map fun k => ((k + 1 : Nat) : Int)
      else p.cands r c := rfl

theorem compute_cands_out {p : Futoshiki} {r c : Nat}
    (h : ¬(r < p.size ∧ c < p.size)) :
    (compute_pc_lists p true).1.cands r c = p.cands r c := by
  rw [compute_pc_lists_true]
  have hsz : (initCands p).size = p.size := rfl
  rw [pcIter_cands_out _ _ _ _ _ (by rw [hsz]; exact h)]
  rw [initCands_cands, if_neg h]

theorem Futoshiki.eq_of_fields {p q : Futoshiki} (h1 : p.size = q.size)
    (h2 : p.board = q.board) (h3 : p.h_cons = q.h_cons) (h4 : p.v_cons = q.v_cons)
    (h5 : p.cands = q.cands) : p = q := by
  cases p; cases q; simp_all

/-- Claim C6: the pre-coloring pass is idempotent — a second run of
`compute_pc_lists` on its own output leaves every candidate list (hence
every length) unchanged and returns the same removed-colors count.  The
initialization loop rebuilds all in-range candidate lists from the board
alone, the board is never modified, and out-of-range lists are never
touched, so the second run performs exactly the same computation as the
first. -/
theorem C6_idempotent (p : Futoshiki) :
    compute_pc_lists (compute_pc_lists p true).1 true = compute_pc_lists p true := by
  have hst := compute_static p
  have hinit : initCands (compute_pc_lists p true).1 = initCands p := by
    apply Futoshiki.eq_of_fields
    · exact hst.1
    · exact hst.2.1
    · exact hst.2.2.1
    · exact hst.2.2.2
    · funext r c
      rw [initCands_cands, initCands_cands, hst.1, hst.2.1]
      by_cases h : r < p.size ∧ c < p.size
      · rw [if_pos h, if_pos h]
      · rw [if_neg h, if_neg h]
        exact compute_cands_out h
  calc compute_pc_lists (compute_pc_lists p true).1 true
      = pcIter (pcFuel (compute_pc_lists p true).1.size)
          (initCands (compute_pc_lists p true).1) 0 := compute_pc_lists_true _
    _ = pcIter (pcFuel p.size) (initCands p) 0 := by rw [hst.1, hinit]
    _ = compute_pc_lists p true := (compute_pc_lists_true p).symm

/-! ### Removed-colors accounting (claim C7) -/

/-- The accounting variant of `pcCell` that measures the length change
across the *filter* step only. -/
def pcCellF (st : Futoshiki × Int) (rc : Nat × Nat) : Futoshiki × Int :=
  (process_uniqueness (filter_possible_colors st.1 rc.1 rc.2) rc.1 rc.2,
   st.2 + (((st.1.cands rc.1 rc.2).length : Int) -
     (((filter_possible_colors st.1 rc.1 rc.2).cands rc.1 rc.2).length : Int)))

def pcRoundF (p : Futoshiki) : Futoshiki × Int :=
  (cellList p.size).foldl pcCellF (p, 0)

def pcIterF : Nat → Futoshiki → Int → Futoshiki × Int
  | 0, p, acc => (p, acc)
  | fuel + 1, p, acc =>
    if sameLengths p (pcRoundF p).1 then ((pcRoundF p).1, acc + (pcRoundF p).2)
    else pcIterF fuel (pcRoundF p).1 (acc + (pcRoundF p).2)

theorem pcCell_eq_pcCellF : pcCell = pcCellF := by
  funext st rc
  rw [pcCell_eq]
  unfold pcCellF
  rw [process_uniqueness_self]

/-- Claim C7, amended: the value returned by `compute_pc_lists` counts
exactly the candidates removed by the filtering step
(`filter_possible_colors`) at the cell being processed; the removals
performed by `process_uniqueness` on the *other* cells of the row and
column are never counted.  In particular, on a propagation-solvable
puzzle the count can be strictly smaller than
total-initial-candidates − size². -/
theorem C7_filter_only (p : Futoshiki) :
    compute_pc_lists p true = pcIterF (pcFuel p.size) (initCands p) 0 := by
  have hr : pcRound = pcRoundF := by
    funext q
    unfold pcRound pcRoundF
    rw [pcCell_eq_pcCellF]
  have h : pcIter = pcIterF := by
    funext fuel
    induction fuel with
    | zero => funext q acc; rfl
    | succ fuel ih =>
      funext q acc
      rw [pcIter, pcIterF, hr, ih]
  rw [compute_pc_lists_true, h]

/-- The total number of initial candidates of a puzzle: `size` for each
empty cell plus 1 for each pre-set cell (spec scenario S5). -/
def totalInitialCands (p : Futoshiki) : Int :=
  ((cellList p.size).map fun rc =>
    if p.board rc.1 rc.2 ≠ 0 then (1 : Int) else (p.size : Int)).sum

/-- A 2×2 puzzle with one pre-set cell whose pre-coloring pass reduces
every empty cell to a singleton. -/
def puzC7 : Futoshiki :=
  { size := 2
    board := fun r c => if r = 0 ∧ c = 0 then 1 else 0
    h_cons := fun _ _ => Cons.none
    v_cons := fun _ _ => Cons.none
    cands := fun _ _ => [] }

/-- Claim C7 as stated is false: on `puzC7` the pass reduces every empty
cell to a singleton, the total number of initial candidates is 7 and
size² is 4, yet `compute_pc_lists` returns 0, not 3 — the removals were
all performed by `process_uniqueness` on cells other than the one being
processed and are never counted. -/
theorem C7_counterexample :
    (∀ rc ∈ cellList puzC7.size, puzC7.board rc.1 rc.2 = 0 →
      ((compute_pc_lists puzC7 true).1.cands rc.1 rc.2).length = 1) ∧
    totalInitialCands puzC7 = 7 ∧
    (compute_pc_lists puzC7 true).2 = 0 ∧
    (compute_pc_lists puzC7 true).2 ≠
      totalInitialCands puzC7 - (puzC7.size : Int) * (puzC7.size : Int) := by
  refine ⟨by decide, by decide, by decide, by decide⟩

/-! ### Work units: shared machinery (claims C3, C9) -/

/-- The all-EMPTY grid. -/
def emptyGrid : Grid := fun _ _ => 0

/-- Apply a list of assignments to a grid, in order. -/
def applyAsgs (g : Grid) (asgs : List (Nat × Nat × Int)) : Grid :=
  asgs.foldl (fun s a => upd2 s a.1 a.2.1 a.2.2) g

/-- Spec P4: applying the assignments in order, each one passes the
`safe` check against the grid built from the preceding ones. -/
def unitSafeFrom (p : Futoshiki) : Grid → List (Nat × Nat × Int) → Bool
  | _, [] => true
  | g, a :: rest =>
      safe p a.1 a.2.1 g a.2.2 && unitSafeFrom p (upd2 g a.1 a.2.1 a.2.2) rest

/-- Row-major index of a cell. -/
def posIdx (n r c : Nat) : Nat := r * n + c

theorem posIdx_ne {n r c row col : Nat} (hc : c < n) (hcol : col ≤ n)
    (h : posIdx n r c < posIdx n row col) : ¬(r = row ∧ c = col) := by
  rintro ⟨rfl, rfl⟩
  exact absurd h (lt_irrefl _)

theorem posIdx_mono_col {n r c c' : Nat} (h : c < c') : posIdx n r c < posIdx n r c' := by
  unfold posIdx; omega

theorem posIdx_succ (n r c : Nat) : posIdx n r (c + 1) = posIdx n r c + 1 := by
  unfold posIdx; omega

theorem posIdx_row_step {n row col : Nat} (hcol : col ≤ n) :
    posIdx n row col ≤ posIdx n (row + 1) 0 := by
  unfold posIdx
  have : row * n + n = (row + 1) * n := by ring
  omega

theorem applyAsgs_append (g : Grid) (l1 l2 : List (Nat × Nat × Int)) :
    applyAsgs g (l1 ++ l2) = applyAsgs (applyAsgs g l1) l2 := by
  unfold applyAsgs
  exact List.foldl_append _ _ _ _

theorem upd2_ne {g : Grid} {r c r' c' : Nat} {v : Int} (h : ¬(r' = r ∧ c' = c)) :
    upd2 g r c v r' c' = g r' c' := by
  simp [upd2, h]

theorem upd2_self (g : Grid) (r c : Nat) (v : Int) : upd2 g r c v r c = v := by
  simp [upd2]

theorem unitSafeFrom_append (p : Futoshiki) :
    ∀ (l : List (Nat × Nat × Int)) (g : Grid) (a : Nat × Nat × Int),
      unitSafeFrom p g (l ++ [a]) =
        (unitSafeFrom p g l && safe p a.1 a.2.1 (applyAsgs g l) a.2.2) := by
  intro l
  induction l with
  | nil =>
    intro g a
    show (safe p a.1 a.2.1 g a.2.2 && true) = (true && safe p a.1 a.2.1 (applyAsgs g []) a.2.2)
    have h : applyAsgs g [] = g := rfl
    rw [h, Bool.and_true, Bool.true_and]
  | cons x xs ih =>
    intro g a
    have h1 : unitSafeFrom p g ((x :: xs) ++ [a]) =
        (safe p x.1 x.2.1 g x.2.2 && unitSafeFrom p (upd2 g x.1 x.2.1 x.2.2) (xs ++ [a])) := rfl
    have h2 : unitSafeFrom p g (x :: xs) =
        (safe p x.1 x.2.1 g x.2.2 && unitSafeFrom p (upd2 g x.1 x.2.1 x.2.2) xs) := rfl
    have h3 : applyAsgs g (x :: xs) = applyAsgs (upd2 g x.1 x.2.1 x.2.2) xs := rfl
    rw [h1, h2, h3, ih, Bool.and_assoc]

/-- `safe` only weakens when filled cells are removed from the grid (for
a nonzero color): if `g1` agrees with `g2` wherever `g1` is nonempty,
then safety against `g2` implies safety against `g1`. -/
theorem safe_anti {p : Futoshiki} {row col : Nat} {g1 g2 : Grid} {color : Int}
    (hsub : ∀ r c, g1 r c = g2 r c ∨ g1 r c = 0) (hc : color ≠ 0)
    (h : safe p row col g2 color = true) : safe p row col g1 color = true := by
  rw [safe_true_iff] at h ⊢
  by_cases hb : p.board row col ≠ 0
  · rw [if_pos hb] at h ⊢; exact h
  · rw [if_neg hb] at h ⊢
    obtain ⟨⟨n1, n2, n3, n4⟩, hdup⟩ := h
    refine ⟨⟨?_, ?_, ?_, ?_⟩, ?_⟩
    · intro hcol hne
      rcases hsub row (col - 1) with he | he
      · rw [he]; exact n1 hcol (he ▸ hne)
      · exact absurd he hne
    · intro hcol hne
      rcases hsub row (col + 1) with he | he
      · rw [he]; exact n2 hcol (he ▸ hne)
      · exact absurd he hne
    · intro hrow hne
      rcases hsub (row - 1) col with he | he
      · rw [he]; exact n3 hrow (he ▸ hne)
      · exact absurd he hne
    · intro hrow hne
      rcases hsub (row + 1) col with he | he
      · rw [he]; exact n4 hrow (he ▸ hne)
      · exact absurd he hne
    · intro i hi
      obtain ⟨d1, d2⟩ := hdup i hi
      constructor
      · intro hic
        rcases hsub row i with he | he
        · rw [he]; exact d1 hic
        · rw [he]; exact fun hh => hc hh.symm
      · intro hir
        rcases hsub i col with he | he
        · rw [he]; exact d2 hir
        · rw [he]; exact fun hh => hc hh.symm

theorem applyAsgs_sub {g1 g2 : Grid}
    (hsub : ∀ r c, g1 r c = g2 r c ∨ g1 r c = 0) :
    ∀ (l : List (Nat × Nat × Int)) (r c : Nat),
      applyAsgs g1 l r c = applyAsgs g2 l r c ∨ applyAsgs g1 l r c = 0 := by
  intro l
  induction l generalizing g1 g2 with
  | nil => exact hsub
  | cons a xs ih =>
    intro r c
    show applyAsgs (upd2 g1 a.1 a.2.1 a.2.2) xs r c = _ ∨ _
    refine ih ?_ r c
    intro r' c'
    show upd2 g1 a.1 a.2.1 a.2.2 r' c' = upd2 g2 a.1 a.2.1 a.2.2 r' c' ∨
      upd2 g1 a.1 a.2.1 a.2.2 r' c' = 0
    by_cases he : r' = a.1 ∧ c' = a.2.1
    · obtain ⟨rfl, rfl⟩ := he
      exact Or.inl (by simp [upd2])
    · rw [upd2_ne he, upd2_ne he]
      exact hsub r' c'

theorem mem_foldl_branch {γ δ : Type} (F : δ → List γ) (cnd : δ → Bool) :
    ∀ (l : List δ) (init : List γ) (u : γ),
      u ∈ l.foldl (fun acc x => if cnd x then acc ++ F x else acc) init ↔
        u ∈ init ∨ ∃ x ∈ l, cnd x = true ∧ u ∈ F x := by
  intro l
  induction l with
  | nil => simp
  | cons x xs ih =>
    intro init u
    show u ∈ xs.foldl _ (if cnd x then init ++ F x else init) ↔ _
    rw [ih]
    by_cases hx : cnd x = true
    · rw [if_pos hx]
      simp only [List.mem_append, List.mem_cons]
      constructor
      · rintro ((h | h) | ⟨y, hy, hcy, hu⟩)
        · exact Or.inl h
        · exact Or.inr ⟨x, Or.inl rfl, hx, h⟩
        · exact Or.inr ⟨y, Or.inr hy, hcy, hu⟩
      · rintro (h | ⟨y, (rfl | hy), hcy, hu⟩)
        · exact Or.inl (Or.inl h)
        · exact Or.inl (Or.inr hu)
        · exact Or.inr ⟨y, hy, hcy, hu⟩
    · rw [if_neg hx]
      simp only [List.mem_cons]
      constructor
      · rintro (h | ⟨y, hy, hcy, hu⟩)
        · exact Or.inl h
        · exact Or.inr ⟨y, Or.inr hy, hcy, hu⟩
      · rintro (h | ⟨y, (rfl | hy), hcy, hu⟩)
        · exact Or.inl h
        · exact absurd hcy hx
        · exact Or.inr ⟨y, hy, hcy, hu⟩

theorem applyAsgs_untouched {r c : Nat} :
    ∀ (l : List (Nat × Nat × Int)) (g : Grid),
      (∀ y ∈ l, ¬(r = y.1 ∧ c = y.2.1)) → applyAsgs g l r c = g r c := by
  intro l
  induction l with
  | nil => intro g _; rfl
  | cons x xs ih =>
    intro g hy
    have h1 : applyAsgs g (x :: xs) = applyAsgs (upd2 g x.1 x.2.1 x.2.2) xs := rfl
    rw [h1, ih _ (fun y hy' => hy y (List.mem_cons_of_mem _ hy'))]
    exact upd2_ne (hy x (List.mem_cons_self _ _))

theorem applyAsgs_value {n : Nat} :
    ∀ (l : List (Nat × Nat × Int)) (g : Grid) (a : Nat × Nat × Int), a ∈ l →
      List.Pairwise (fun x y : Nat × Nat × Int =>
        posIdx n x.1 x.2.1 < posIdx n y.1 y.2.1) l →
      applyAsgs g l a.1 a.2.1 = a.2.2 := by
  intro l
  induction l with
  | nil => intro g a ha; exact absurd ha (List.not_mem_nil a)
  | cons x xs ih =>
    intro g a ha hpw
    have h1 : applyAsgs g (x :: xs) = applyAsgs (upd2 g x.1 x.2.1 x.2.2) xs := rfl
    rcases List.mem_cons.mp ha with rfl | ha'
    · rw [h1, applyAsgs_untouched xs _ (fun y hy => by
        rintro ⟨he1, he2⟩
        have := (List.pairwise_cons.mp hpw).1 y hy
        rw [← he1, ← he2] at this
        exact absurd this (lt_irrefl _))]
      exact upd2_self g a.1 a.2.1 a.2.2
    · exact ih _ a ha' (List.pairwise_cons.mp hpw).2

/-- Structural facts about every unit emitted by the generator: the
stored depth is the number of assignments, the assignment cells are
in-range, empty on the board, and strictly increasing in row-major
order. -/
theorem genAux_struct (p : Futoshiki) :
    ∀ (sol : Grid) (curDepth targetDepth : Nat) (asg : List (Nat × Nat × Int))
      (row col : Nat),
      col ≤ p.size →
      curDepth = asg.length →
      List.Pairwise (fun a b : Nat × Nat × Int =>
        posIdx p.size a.1 a.2.1 < posIdx p.size b.1 b.2.1) asg →
      (∀ a ∈ asg, a.1 < p.size ∧ a.2.1 < p.size ∧ p.board a.1 a.2.1 = 0) →
      (∀ a ∈ asg, posIdx p.size a.1 a.2.1 < posIdx p.size row col) →
      ∀ u ∈ genAux p sol curDepth targetDepth asg row col,
        u.depth = u.assignments.length ∧
        List.Pairwise (fun a b : Nat × Nat × Int =>
          posIdx p.size a.1 a.2.1 < posIdx p.size b.1 b.2.1) u.assignments ∧
        (∀ a ∈ u.assignments, a.1 < p.size ∧ a.2.1 < p.size ∧ p.board a.1 a.2.1 = 0) := by
  intro sol curDepth targetDepth asg row col
  induction sol, curDepth, targetDepth, asg, row, col using genAux.induct p with
  | case1 sol curD targetD asg row col hr hc hcell hd =>
    intro hcol hlen hpw hmem hlt u hu
    rw [genAux, dif_pos hr, dif_pos hc, if_pos hcell, if_pos hd] at hu
    rw [List.mem_singleton] at hu
    subst hu
    exact ⟨hlen, hpw, hmem⟩
  | case2 sol curD targetD asg row col hr hc hcell hd ih =>
    intro hcol hlen hpw hmem hlt u hu
    rw [genAux, dif_pos hr, dif_pos hc, if_pos hcell, if_neg hd] at hu
    rw [mem_foldl_branch] at hu
    rcases hu with hu | ⟨color, hcl, hsafe, hu⟩
    · exact absurd hu (List.not_mem_nil u)
    · refine ih color ?_ ?_ ?_ ?_ ?_ u hu
      · omega
      · simp [hlen]
      · rw [List.pairwise_append]
        refine ⟨hpw, List.pairwise_singleton _ _, ?_⟩
        intro a ha b hb
        rw [List.mem_singleton] at hb
        subst hb
        exact hlt a ha
      · intro a ha
        rcases List.mem_append.mp ha with ha' | ha'
        · exact hmem a ha'
        · rw [List.mem_singleton] at ha'
          subst ha'
          exact ⟨hr, hc, hcell.1⟩
      · intro a ha
        have hstep : posIdx p.size row col < posIdx p.size row (col + 1) :=
          posIdx_mono_col (Nat.lt_succ_self col)
        rcases List.mem_append.mp ha with ha' | ha'
        · exact lt_trans (hlt a ha') hstep
        · rw [List.mem_singleton] at ha'
          subst ha'
          exact hstep
  | case3 sol curD targetD asg row col hr hc hcell ih =>
    intro hcol hlen hpw hmem hlt u hu
    rw [genAux, dif_pos hr, dif_pos hc, if_neg hcell] at hu
    refine ih (by omega) hlen hpw hmem ?_ u hu
    intro a ha
    exact lt_trans (hlt a ha) (posIdx_mono_col (Nat.lt_succ_self col))
  | case4 sol curD targetD asg row col hr hc ih =>
    intro hcol hlen hpw hmem hlt u hu
    rw [genAux, dif_pos hr, dif_neg hc] at hu
    refine ih (Nat.zero_le _) hlen hpw hmem ?_ u hu
    intro a ha
    have h1 := hlt a ha
    have h2 : posIdx p.size row col ≤ posIdx p.size (row + 1) 0 := posIdx_row_step hcol
    omega
  | case5 sol curD targetD asg row col hr =>
    intro hcol hlen hpw hmem hlt u hu
    rw [genAux, dif_neg hr] at hu
    rw [List.mem_singleton] at hu
    subst hu
    exact ⟨hlen, hpw, hmem⟩

/-- `color_g_seq` never writes a cell at a row-major position strictly
before its start position: the final grid agrees with the input grid
there. -/
theorem colorGSeq_frames (p : Futoshiki) :
    ∀ (sol : Grid) (row col : Nat), col ≤ p.size →
      ∀ r c, c < p.size → posIdx p.size r c < posIdx p.size row col →
        (colorGSeq p sol row col).2 r c = sol r c := by
  refine colorGSeq.induct p
    (fun sol row col => col ≤ p.size → ∀ r c, c < p.size →
      posIdx p.size r c < posIdx p.size row col →
      (colorGSeq p sol row col).2 r c = sol r c)
    (fun sol row col hcol2 l => ∀ r c, c < p.size →
      posIdx p.size r c < posIdx p.size row col →
      (tryCands p sol row col hcol2 l).2 r c = sol r c)
    ?_ ?_ ?_ ?_ ?_ ?_ ?_ ?_
  · intro sol row col hr hcol r c hc hpos
    rw [colorGSeq, dif_pos hr]
  · intro sol row col hr hc2 ih hcol r c hc hpos
    rw [colorGSeq, dif_neg hr, dif_pos hc2]
    refine ih (Nat.zero_le _) r c hc ?_
    have hce : col = p.size := by omega
    subst hce
    have h2 : posIdx p.size row p.size = posIdx p.size (row + 1) 0 := by
      unfold posIdx; ring
    omega
  · intro sol row col hr hc2 hb ih hcol r c hc hpos
    rw [colorGSeq, dif_neg hr, dif_neg hc2, if_pos hb]
    rw [ih (by omega) r c hc (by rw [posIdx_succ]; omega)]
    exact upd2_ne (by
      rintro ⟨rfl, rfl⟩
      exact absurd hpos (lt_irrefl _))
  · intro sol row col hr hc2 hb ih hcol r c hc hpos
    rw [colorGSeq, dif_neg hr, dif_neg hc2, if_neg hb]
    exact ih r c hc hpos
  · intro sol row col hcol2 r c hc hpos
    rw [tryCands]
  · intro sol row col hcol2 color rest hsafe res hres ih r c hc hpos
    rw [tryCands, if_pos hsafe]
    show (if res.1 then res else _).2 r c = sol r c
    rw [if_pos hres]
    rw [ih (by omega) r c hc (by rw [posIdx_succ]; omega)]
    exact upd2_ne (by
      rintro ⟨rfl, rfl⟩
      exact absurd hpos (lt_irrefl _))
  · intro sol row col hcol2 color rest hsafe res hres ih1 ih2 r c hc hpos
    rw [tryCands, if_pos hsafe]
    show (if res.1 then res else
      tryCands p (upd2 res.2 row col 0) row col hcol2 rest).2 r c = sol r c
    rw [if_neg hres]
    rw [ih2 r c hc hpos]
    have hne : ¬(r = row ∧ c = col) := by
      rintro ⟨rfl, rfl⟩
      exact absurd hpos (lt_irrefl _)
    rw [upd2_ne hne]
    rw [ih1 (by omega) r c hc (by rw [posIdx_succ]; omega)]
    exact upd2_ne hne
  · intro sol row col hcol2 color rest hsafe ih r c hc hpos
    rw [tryCands, if_neg hsafe]
    exact ih r c hc hpos

theorem exists_getLast? {α : Type} : ∀ (l : List α), l ≠ [] → ∃ a, l.getLast? = some a := by
  intro l
  induction l with
  | nil => intro h; exact absurd rfl h
  | cons x xs ih =>
    intro _
    cases xs with
    | nil => exact ⟨x, List.getLast?_singleton x⟩
    | cons y ys =>
      obtain ⟨a, ha⟩ := ih (List.cons_ne_nil y ys)
      exact ⟨a, (List.getLast?_cons_cons).trans ha⟩

theorem mem_of_getLast?_eq {α : Type} : ∀ (l : List α) (a : α), l.getLast? = some a → a ∈ l := by
  intro l
  induction l with
  | nil => intro a h; simp at h
  | cons x xs ih =>
    intro a h
    cases xs with
    | nil =>
      rw [List.getLast?_singleton] at h
      injection h with h
      subst h
      exact List.mem_singleton_self x
    | cons y ys =>
      rw [List.getLast?_cons_cons] at h
      exact List.mem_cons_of_mem x (ih a h)

theorem getD_pred_getLast? {α : Type} (z : α) :
    ∀ (l : List α) (a : α), l.getLast? = some a → l.getD (l.length - 1) z = a := by
  intro l
  induction l with
  | nil => intro a h; simp at h
  | cons x xs ih =>
    intro a h
    cases xs with
    | nil =>
      rw [List.getLast?_singleton, Option.some_inj] at h
      subst h
      rfl
    | cons y ys =>
      rw [List.getLast?_cons_cons] at h
      have h1 : (x :: y :: ys).length - 1 = (y :: ys).length - 1 + 1 := by
        simp [List.length_cons]
      rw [h1, List.getD_cons_succ]
      exact ih a h

theorem pairwise_getLast? {α : Type} {R : α → α → Prop} :
    ∀ (l : List α) (last : α), l.getLast? = some last → List.Pairwise R l →
      ∀ a ∈ l, a = last ∨ R a last := by
  intro l
  induction l with
  | nil => intro last h; simp at h
  | cons x xs ih =>
    intro last h hpw a ha
    cases xs with
    | nil =>
      rw [List.getLast?_singleton] at h
      injection h with h
      subst h
      rw [List.mem_singleton] at ha
      exact Or.inl ha
    | cons y ys =>
      rw [List.getLast?_cons_cons] at h
      obtain ⟨hx, hpw'⟩ := List.pairwise_cons.mp hpw
      rcases List.mem_cons.mp ha with rfl | ha'
      · exact Or.inr (hx last (mem_of_getLast?_eq _ _ h))
      · exact ih last h hpw' a ha'

/-! ### Candidate lists after pre-coloring stay inside `1..size` -/

theorem removeFrom_cands_sub {x : Futoshiki} {a b r c : Nat} {color v : Int}
    (h : v ∈ (removeFrom x a b color).cands r c) : v ∈ x.cands r c := by
  by_cases he : r = a ∧ c = b
  · obtain ⟨rfl, rfl⟩ := he
    have h1 : (removeFrom x r c color).cands r c =
        (x.cands r c).filter fun y => y != color := by
      simp [removeFrom, setCands]
    rw [h1] at h
    exact (List.mem_filter.mp h).1
  · rwa [removeFrom_cands_ne he] at h

theorem uniqStep_cands_sub {x : Futoshiki} {row col i r c : Nat} {color v : Int}
    (h : v ∈ (uniqStep row col color x i).cands r c) : v ∈ x.cands r c := by
  unfold uniqStep at h
  by_cases hir : i ≠ row
  · rw [if_pos hir] at h
    have h2 := removeFrom_cands_sub h
    by_cases hic : i ≠ col
    · rw [if_pos hic] at h2
      exact removeFrom_cands_sub h2
    · rwa [if_neg hic] at h2
  · rw [if_neg hir] at h
    by_cases hic : i ≠ col
    · rw [if_pos hic] at h
      exact removeFrom_cands_sub h
    · rwa [if_neg hic] at h

theorem process_uniqueness_cands_sub {x : Futoshiki} {row col r c : Nat} {v : Int}
    (h : v ∈ (process_uniqueness x row col).cands r c) : v ∈ x.cands r c := by
  unfold process_uniqueness at h
  split at h
  · revert h
    exact foldl_preserve
      (fun y : Futoshiki => v ∈ y.cands r c → v ∈ x.cands r c)
      _ _ _ (fun y i hy hv => hy (uniqStep_cands_sub hv)) id
  · exact h

theorem filter_cands_sub {x : Futoshiki} {a b r c : Nat} {v : Int}
    (h : v ∈ (filter_possible_colors x a b).cands r c) :
    v ∈ x.cands r c ∨ (x.board r c ≠ 0 ∧ v = x.board r c) := by
  by_cases he : r = a ∧ c = b
  · obtain ⟨rfl, rfl⟩ := he
    unfold filter_possible_colors at h
    split at h
    · have h1 : (setCands x r c [x.board r c]).cands r c = [x.board r c] := by
        simp [setCands]
      rw [h1, List.mem_singleton] at h
      right
      exact ⟨by assumption, h⟩
    · have h1 : (setCands x r c ((x.cands r c).filter
          fun color => satisfies_inequalities x r c color)).cands r c =
          (x.cands r c).filter fun color => satisfies_inequalities x r c color := by
        simp [setCands]
      rw [h1] at h
      exact Or.inl (List.mem_filter.mp h).1
  · rw [filter_cands_ne he] at h
    exact Or.inl h

theorem pcRound_cands_sub {q : Futoshiki} {r c : Nat} {v : Int}
    (h : v ∈ (pcRound q).1.cands r c) :
    v ∈ q.cands r c ∨ (q.board r c ≠ 0 ∧ v = q.board r c) := by
  unfold pcRound at h
  revert h
  exact foldl_preserve
    (fun st : Futoshiki × Int => sameStatic st.1 q ∧
      (v ∈ st.1.cands r c → v ∈ q.cands r c ∨ (q.board r c ≠ 0 ∧ v = q.board r c)))
    pcCell _ _
    (fun st rc hst => by
      refine ⟨sameStatic_trans (pcCell_static st rc) hst.1, ?_⟩
      intro hv
      rw [pcCell_eq] at hv
      have h1 := process_uniqueness_cands_sub hv
      rcases filter_cands_sub h1 with h2 | h2
      · exact hst.2 h2
      · rw [hst.1.2.1] at h2
        exact Or.inr h2)
    ⟨sameStatic_refl q, fun h => Or.inl h⟩ |>.2

theorem pcIter_cands_sub : ∀ (fuel : Nat) (q : Futoshiki) (acc : Int) (r c : Nat) (v : Int),
    v ∈ (pcIter fuel q acc).1.cands r c →
      v ∈ q.cands r c ∨ (q.board r c ≠ 0 ∧ v = q.board r c) := by
  intro fuel
  induction fuel with
  | zero => intro q acc r c v h; exact Or.inl h
  | succ fuel ih =>
    intro q acc r c v h
    rw [pcIter] at h
    split at h
    · exact pcRound_cands_sub h
    · rcases ih _ _ _ _ _ h with h1 | h1
      · exact pcRound_cands_sub h1
      · rw [(pcRound_static q).2.1] at h1
        exact Or.inr h1

/-- After pre-coloring, every candidate of an in-range cell that is
empty on the board lies in `1..size`. -/
theorem compute_cands_range {q : Futoshiki} {r c : Nat} {v : Int}
    (hr : r < q.size) (hc : c < q.size) (hb : q.board r c = 0)
    (h : v ∈ (compute_pc_lists q true).1.cands r c) :
    1 ≤ v ∧ v ≤ (q.size : Int) := by
  rw [compute_pc_lists_true] at h
  rcases pcIter_cands_sub _ _ _ _ _ _ h with h1 | h1
  · rw [initCands_cands, if_pos ⟨hr, hc⟩] at h1
    rw [if_neg (by simp [hb])] at h1
    simp only [List.mem_map, List.mem_range] at h1
    obtain ⟨k, hk, rfl⟩ := h1
    constructor
    · omega
    · omega
  · exact absurd hb (by simpa using h1.1)

/-! ### Work-unit safety (claim C3) -/

theorem genAux_safety (p : Futoshiki)
    (hpos : ∀ r c, r < p.size → c < p.size → p.board r c = 0 →
      ∀ v ∈ p.cands r c, v ≠ 0) :
    ∀ (sol : Grid) (curDepth targetDepth : Nat) (asg : List (Nat × Nat × Int))
      (row col : Nat),
      sol = applyAsgs p.board asg →
      unitSafeFrom p emptyGrid asg = true →
      ∀ u ∈ genAux p sol curDepth targetDepth asg row col,
        unitSafeFrom p emptyGrid u.assignments = true := by
  intro sol curDepth targetDepth asg row col
  induction sol, curDepth, targetDepth, asg, row, col using genAux.induct p with
  | case1 sol curD targetD asg row col hr hc hcell hd =>
    intro hsol hsafe u hu
    rw [genAux, dif_pos hr, dif_pos hc, if_pos hcell, if_pos hd] at hu
    rw [List.mem_singleton] at hu
    subst hu
    exact hsafe
  | case2 sol curD targetD asg row col hr hc hcell hd ih =>
    intro hsol hsafe u hu
    rw [genAux, dif_pos hr, dif_pos hc, if_pos hcell, if_neg hd, mem_foldl_branch] at hu
    rcases hu with hu | ⟨color, hcl, hsafec, hu⟩
    · exact absurd hu (List.not_mem_nil u)
    · subst hsol
      refine ih color ?_ ?_ u hu
      · rw [applyAsgs_append]
        rfl
      · rw [unitSafeFrom_append, hsafe, Bool.true_and]
        exact safe_anti (applyAsgs_sub (fun r c => Or.inr rfl) asg)
          (hpos row col hr hc hcell.1 color hcl) hsafec
  | case3 sol curD targetD asg row col hr hc hcell ih =>
    intro hsol hsafe u hu
    rw [genAux, dif_pos hr, dif_pos hc, if_neg hcell] at hu
    exact ih hsol hsafe u hu
  | case4 sol curD targetD asg row col hr hc ih =>
    intro hsol hsafe u hu
    rw [genAux, dif_pos hr, dif_neg hc] at hu
    exact ih hsol hsafe u hu
  | case5 sol curD targetD asg row col hr =>
    intro hsol hsafe u hu
    rw [genAux, dif_neg hr] at hu
    rw [List.mem_singleton] at hu
    subst hu
    exact hsafe

/-- Claim C3: every `WorkUnit` produced by `generate_work_units` on a
pre-colored puzzle can be applied, assignment by assignment, to an
all-EMPTY grid with every intermediate `safe` check passing.  The
generator checks each assignment with `safe` against board-plus-prior
assignments; dropping the board values only removes filled cells, and
`safe` is antitone in the filled cells (for the nonzero colors that
pre-coloring guarantees). -/
theorem C3_work_unit_safety (q : Futoshiki) (depth : Nat) (u : WorkUnit)
    (hu : u ∈ generate_work_units (compute_pc_lists q true).1 depth) :
    unitSafeFrom (compute_pc_lists q true).1 emptyGrid u.assignments = true := by
  have hst := compute_static q
  refine genAux_safety (compute_pc_lists q true).1 ?_
    (compute_pc_lists q true).1.board 0 depth [] 0 0 rfl rfl u
    (List.take_subset _ _ hu)
  intro r c hr hc hb v hv
  have hr' : r < q.size := hst.1 ▸ hr
  have hc' : c < q.size := hst.1 ▸ hc
  have hb' : q.board r c = 0 := by rw [← hst.2.1]; exact hb
  have := compute_cands_range hr' hc' hb' hv
  omega

/-- A 1×1 puzzle with its single cell empty. -/
def puzW : Futoshiki :=
  { size := 1
    board := fun _ _ => 0
    h_cons := fun _ _ => Cons.none
    v_cons := fun _ _ => Cons.none
    cands := fun _ _ => [] }

/-- The pre-colored 1×1 puzzle. -/
def pcw : Futoshiki := (compute_pc_lists puzW true).1

theorem genAux_pcw : genAux pcw pcw.board 0 1 [] 0 0 = [⟨1, [(0, 0, 1)]⟩] := by
  rw [genAux, dif_pos (show (0 : Nat) < pcw.size by decide),
    dif_pos (show (0 : Nat) < pcw.size by decide),
    if_pos (show pcw.board 0 0 = 0 ∧ pcw.board 0 0 = 0 by decide),
    if_neg (show ¬(1 ≤ 0) by decide)]
  have hc : pcw.cands 0 0 = [1] := by decide
  rw [hc, List.foldl_cons,
    if_pos (show safe pcw 0 0 pcw.board 1 = true by decide), List.foldl_nil,
    List.nil_append]
  rw [genAux, dif_pos (show (0 : Nat) < pcw.size by decide),
    dif_neg (show ¬((1 : Nat) < pcw.size) by decide)]
  rw [genAux, dif_neg (show ¬((1 : Nat) < pcw.size) by decide)]
  rfl

theorem C3_witness :
    (⟨1, [(0, 0, 1)]⟩ : WorkUnit) ∈ generate_work_units (compute_pc_lists puzW true).1 1 ∧
      unitSafeFrom (compute_pc_lists puzW true).1 emptyGrid [(0, 0, 1)] = true := by
  have hmem : (⟨1, [(0, 0, 1)]⟩ : WorkUnit) ∈
      generate_work_units (compute_pc_lists puzW true).1 1 := by
    show _ ∈ generate_work_units pcw 1
    rw [generate_work_units, genAux_pcw]
    simp
  exact ⟨hmem, C3_work_unit_safety puzW 1 _ hmem⟩

/-! ### Work-unit ordering and continuation (claim C9) -/

/-- Claim C9: for every emitted unit the stored depth is the number of
assignments; the assignments sit at strictly increasing row-major
positions, on in-range board-empty cells; the continuation point is
`(0,0)` at depth 0 and the cell right after the last assignment
otherwise; every assignment lies strictly before the continuation
point; and a subsequent `color_g_seq` run from the continuation point
leaves every assignment's cell untouched. -/
theorem C9_work_unit_ordering (p : Futoshiki) (depth : Nat) (u : WorkUnit)
    (hu : u ∈ generate_work_units p depth) :
    u.depth = u.assignments.length ∧
    List.Pairwise (fun a b : Nat × Nat × Int =>
      posIdx p.size a.1 a.2.1 < posIdx p.size b.1 b.2.1) u.assignments ∧
    (∀ a ∈ u.assignments, a.1 < p.size ∧ a.2.1 < p.size ∧ p.board a.1 a.2.1 = 0) ∧
    (u.depth = 0 → get_continuation_point u = (0, 0)) ∧
    (∀ last, u.assignments.getLast? = some last →
      get_continuation_point u = (last.1, last.2.1 + 1)) ∧
    (∀ a ∈ u.assignments,
      posIdx p.size a.1 a.2.1 <
        posIdx p.size (get_continuation_point u).1 (get_continuation_point u).2) ∧
    (∀ a ∈ u.assignments,
      (colorGSeq p (apply_work_unit p u) (get_continuation_point u).1
          (get_continuation_point u).2).2 a.1 a.2.1 = a.2.2) := by
  have hu' : u ∈ genAux p p.board 0 depth [] 0 0 := List.take_subset _ _ hu
  obtain ⟨hd, hpw, hmem⟩ := genAux_struct p p.board 0 depth [] 0 0 (Nat.zero_le _) rfl
    List.Pairwise.nil (fun a ha => absurd ha (List.not_mem_nil a))
    (fun a ha => absurd ha (List.not_mem_nil a)) u hu'
  have hcont : ∀ last, u.assignments.getLast? = some last →
      get_continuation_point u = (last.1, last.2.1 + 1) := by
    intro last hlast
    have hne : u.assignments ≠ [] := by
      intro hnil
      rw [hnil] at hlast
      simp at hlast
    have hdp : 0 < u.depth := by
      rw [hd]
      exact List.length_pos.mpr hne
    rw [get_continuation_point, if_pos hdp, hd]
    rw [getD_pred_getLast? _ _ _ hlast]
  have hbefore : ∀ a ∈ u.assignments,
      posIdx p.size a.1 a.2.1 <
        posIdx p.size (get_continuation_point u).1 (get_continuation_point u).2 := by
    intro a ha
    have hne : u.assignments ≠ [] := by
      intro hnil
      rw [hnil] at ha
      exact List.not_mem_nil a ha
    obtain ⟨last, hlast⟩ := exists_getLast? _ hne
    rw [hcont last hlast]
    show posIdx p.size a.1 a.2.1 < posIdx p.size last.1 (last.2.1 + 1)
    rw [posIdx_succ]
    rcases pairwise_getLast? _ last hlast hpw a ha with rfl | hlt
    · omega
    · omega
  refine ⟨hd, hpw, hmem, ?_, hcont, hbefore, ?_⟩
  · intro h0
    rw [get_continuation_point, if_neg (by omega)]
  · intro a ha
    have hne : u.assignments ≠ [] := by
      intro hnil
      rw [hnil] at ha
      exact List.not_mem_nil a ha
    obtain ⟨last, hlast⟩ := exists_getLast? _ hne
    have hcl : (get_continuation_point u).2 ≤ p.size := by
      rw [hcont last hlast]
      exact (hmem last (mem_of_getLast?_eq _ _ hlast)).2.1
    rw [colorGSeq_frames p _ _ _ hcl a.1 a.2.1 (hmem a ha).2.1 (hbefore a ha)]
    have happ : apply_work_unit p u = applyAsgs p.board u.assignments := by
      unfold apply_work_unit applyAsgs
      rw [hd, List.take_length]
    rw [happ]
    exact applyAsgs_value _ _ a ha hpw

theorem C9_witness :
    (⟨0, []⟩ : WorkUnit) ∈ generate_work_units puzW 0 ∧
      get_continuation_point ⟨0, []⟩ = (0, 0) := by
  have hmem : (⟨0, []⟩ : WorkUnit) ∈ generate_work_units puzW 0 := by
    rw [generate_work_units]
    rw [genAux, dif_pos (show (0 : Nat) < puzW.size by decide),
      dif_pos (show (0 : Nat) < puzW.size by decide),
      if_pos (show puzW.board 0 0 = 0 ∧ puzW.board 0 0 = 0 by decide),
      if_pos (Nat.le_refl 0)]
    simp
  exact ⟨hmem, ((C9_work_unit_ordering puzW 0 _ hmem).2.2.2.1) rfl⟩

/-! ### Backtracker restores state on failure (claim C10) -/

/-- Row-major "at or after" on cells: `(r,c)` is visited at or after
`(row,col)` by the traversal. -/
def cellGE (row col r c : Nat) : Prop := row < r ∨ (row = r ∧ col ≤ c)

theorem colorGSeq_restore (p : Futoshiki) :
    ∀ (sol : Grid) (row col : Nat),
      (∀ r c, r < p.size → c < p.size → p.board r c = 0 → cellGE row col r c →
        sol r c = 0) →
      (colorGSeq p sol row col).1 = false →
      (∀ r c, p.board r c = 0 → (colorGSeq p sol row col).2 r c = sol r c) ∧
      (∀ r c, p.board r c ≠ 0 →
        (colorGSeq p sol row col).2 r c = sol r c ∨
          (colorGSeq p sol row col).2 r c = p.board r c) := by
  refine colorGSeq.induct p
    (fun sol row col =>
      (∀ r c, r < p.size → c < p.size → p.board r c = 0 → cellGE row col r c →
        sol r c = 0) →
      (colorGSeq p sol row col).1 = false →
      (∀ r c, p.board r c = 0 → (colorGSeq p sol row col).2 r c = sol r c) ∧
      (∀ r c, p.board r c ≠ 0 →
        (colorGSeq p sol row col).2 r c = sol r c ∨
          (colorGSeq p sol row col).2 r c = p.board r c))
    (fun sol row col hcol2 l =>
      row < p.size →
      p.board row col = 0 →
      (∀ r c, r < p.size → c < p.size → p.board r c = 0 → cellGE row col r c →
        sol r c = 0) →
      (tryCands p sol row col hcol2 l).1 = false →
      (∀ r c, p.board r c = 0 → (tryCands p sol row col hcol2 l).2 r c = sol r c) ∧
      (∀ r c, p.board r c ≠ 0 →
        (tryCands p sol row col hcol2 l).2 r c = sol r c ∨
          (tryCands p sol row col hcol2 l).2 r c = p.board r c))
    ?_ ?_ ?_ ?_ ?_ ?_ ?_ ?_
  · intro sol row col hr hempty hfalse
    rw [colorGSeq, dif_pos hr] at hfalse
    exact absurd hfalse (by simp)
  · intro sol row col hr hc2 ih hempty hfalse
    rw [colorGSeq, dif_neg hr, dif_pos hc2] at hfalse ⊢
    refine ih ?_ hfalse
    intro r c h1 h2 h3 h4
    refine hempty r c h1 h2 h3 ?_
    unfold cellGE at h4 ⊢
    omega
  · intro sol row col hr hc2 hb ih hempty hfalse
    rw [colorGSeq, dif_neg hr, dif_neg hc2, if_pos hb] at hfalse ⊢
    have hempty1 : ∀ r c, r < p.size → c < p.size → p.board r c = 0 →
        cellGE row (col + 1) r c → upd2 sol row col (p.board row col) r c = 0 := by
      intro r c h1 h2 h3 h4
      have hne : ¬(r = row ∧ c = col) := by
        rintro ⟨rfl, rfl⟩
        exact hb h3
      rw [upd2_ne hne]
      refine hempty r c h1 h2 h3 ?_
      unfold cellGE at h4 ⊢
      omega
    obtain ⟨r1, r2⟩ := ih hempty1 hfalse
    constructor
    · intro r c hb'
      have hne : ¬(r = row ∧ c = col) := by
        rintro ⟨rfl, rfl⟩
        exact hb hb'
      rw [r1 r c hb', upd2_ne hne]
    · intro r c hb'
      rcases r2 r c hb' with h | h
      · by_cases he : r = row ∧ c = col
        · obtain ⟨rfl, rfl⟩ := he
          rw [upd2_self] at h
          exact Or.inr h
        · rw [upd2_ne he] at h
          exact Or.inl h
      · exact Or.inr h
  · intro sol row col hr hc2 hb ih hempty hfalse
    rw [colorGSeq, dif_neg hr, dif_neg hc2, if_neg hb] at hfalse ⊢
    exact ih (by omega) (by simpa using hb) hempty hfalse
  · intro sol row col hcol2 hrow hbe hempty hfalse
    rw [tryCands] at hfalse ⊢
    exact ⟨fun r c _ => rfl, fun r c _ => Or.inl rfl⟩
  · intro sol row col hcol2 color rest hsafe res hres ih hrow hbe hempty hfalse
    rw [tryCands, if_pos hsafe] at hfalse
    rw [if_pos hres] at hfalse
    have hres2 : (colorGSeq p (upd2 sol row col color) row (col + 1)).1 = true := hres
    exact Bool.noConfusion (hres2.symm.trans hfalse)
  · intro sol row col hcol2 color rest hsafe res hres ih1 ih2 hrow hbe hempty hfalse
    rw [tryCands, if_pos hsafe] at hfalse ⊢
    rw [if_neg hres] at hfalse ⊢
    have hempty1 : ∀ r c, r < p.size → c < p.size → p.board r c = 0 →
        cellGE row (col + 1) r c → upd2 sol row col color r c = 0 := by
      intro r c h1 h2 h3 h4
      have hne : ¬(r = row ∧ c = col) := by
        rintro ⟨rfl, rfl⟩
        unfold cellGE at h4
        omega
      rw [upd2_ne hne]
      refine hempty r c h1 h2 h3 ?_
      unfold cellGE at h4 ⊢
      omega
    have hres' : (colorGSeq p (upd2 sol row col color) row (col + 1)).1 = false := by
      have : res.1 ≠ true := hres
      exact Bool.not_eq_true _ ▸ (Bool.eq_false_iff.mpr this)
    obtain ⟨r1, r2⟩ := ih1 hempty1 hres'
    have hsolc : sol row col = 0 :=
      hempty row col hrow hcol2 hbe (Or.inr ⟨rfl, le_refl col⟩)
    have hs2 : ∀ r c, p.board r c = 0 → upd2 res.2 row col 0 r c = sol r c := by
      intro r c hb'
      by_cases he : r = row ∧ c = col
      · obtain ⟨rfl, rfl⟩ := he
        rw [upd2_self, hsolc]
      · rw [upd2_ne he, r1 r c hb', upd2_ne he]
    have hs2p : ∀ r c, p.board r c ≠ 0 →
        upd2 res.2 row col 0 r c = sol r c ∨ upd2 res.2 row col 0 r c = p.board r c := by
      intro r c hb'
      have hne : ¬(r = row ∧ c = col) := by
        rintro ⟨rfl, rfl⟩
        exact hb' hbe
      rw [upd2_ne hne]
      rcases r2 r c hb' with h | h
      · rw [h, upd2_ne hne]
        exact Or.inl rfl
      · exact Or.inr h
    have hempty2 : ∀ r c, r < p.size → c < p.size → p.board r c = 0 →
        cellGE row col r c → upd2 res.2 row col 0 r c = 0 := by
      intro r c h1 h2 h3 h4
      rw [hs2 r c h3]
      exact hempty r c h1 h2 h3 h4
    obtain ⟨f1, f2⟩ := ih2 hrow hbe hempty2 hfalse
    constructor
    · intro r c hb'
      rw [f1 r c hb']
      exact hs2 r c hb'
    · intro r c hb'
      rcases f2 r c hb' with h | h
      · rw [h]
        exact hs2p r c hb'
      · exact Or.inr h
  · intro sol row col hcol2 color rest hsafe ih hrow hbe hempty hfalse
    rw [tryCands, if_neg hsafe] at hfalse ⊢
    exact ih hrow hbe hempty hfalse

/-- Claim C10: if `color_g_seq` is started at `(row,col)` on a grid in
which every board-empty cell at or after `(row,col)` (row-major) is
EMPTY, and it returns false, then every board-empty cell holds its entry
value afterwards — all tried assignments are undone — and only pre-set
cells may have been written, and only with their board value. -/
theorem C10_backtrack_restores (p : Futoshiki) (sol : Grid) (row col : Nat)
    (hempty : ∀ r c, r < p.size → c < p.size → p.board r c = 0 → cellGE row col r c →
      sol r c = 0)
    (hfail : (colorGSeq p sol row col).1 = false) :
    (∀ r c, p.board r c = 0 → (colorGSeq p sol row col).2 r c = sol r c) ∧
    (∀ r c, p.board r c ≠ 0 →
      (colorGSeq p sol row col).2 r c = sol r c ∨
        (colorGSeq p sol row col).2 r c = p.board r c) :=
  colorGSeq_restore p sol row col hempty hfail

/-- A 1×1 puzzle with an empty cell and an empty candidate list
(unsolvable: the backtracker fails immediately). -/
def puzC10 : Futoshiki :=
  { size := 1
    board := fun _ _ => 0
    h_cons := fun _ _ => Cons.none
    v_cons := fun _ _ => Cons.none
    cands := fun _ _ => [] }

theorem colorGSeq_puzC10 :
    colorGSeq puzC10 puzC10.board 0 0 = (false, puzC10.board) := by
  rw [colorGSeq, dif_neg (show ¬(puzC10.size ≤ 0) by decide),
    dif_neg (show ¬(puzC10.size ≤ 0) by decide),
    if_neg (show ¬(puzC10.board 0 0 ≠ 0) by decide)]
  have hc : puzC10.cands 0 0 = [] := rfl
  rw [hc, tryCands]

theorem C10_witness :
    (colorGSeq puzC10 puzC10.board 0 0).1 = false ∧
      (colorGSeq puzC10 puzC10.board 0 0).2 0 0 = puzC10.board 0 0 := by
  have hempty : ∀ r c, r < puzC10.size → c < puzC10.size → puzC10.board r c = 0 →
      cellGE 0 0 r c → puzC10.board r c = 0 := fun r c _ _ hb _ => hb
  have hfail : (colorGSeq puzC10 puzC10.board 0 0).1 = false := by
    rw [colorGSeq_puzC10]
  exact ⟨hfail,
    (C10_backtrack_restores puzC10 puzC10.board 0 0 hempty hfail).1 0 0 rfl⟩

/-! ### Backtracker soundness (claim C1): the invariant -/

theorem posIdx_inj {n r c row col : Nat} (hc : c < n) (hcol : col < n)
    (h : posIdx n r c = posIdx n row col) : r = row ∧ c = col := by
  unfold posIdx at h
  have hr : r = row := by
    by_contra hne
    rcases Nat.lt_or_ge r row with hlt | hge
    · have h1 : (r + 1) * n ≤ row * n := Nat.mul_le_mul_right n hlt
      have h2 : (r + 1) * n = r * n + n := by ring
      omega
    · have hgt : row < r := by omega
      have h1 : (row + 1) * n ≤ r * n := Nat.mul_le_mul_right n hgt
      have h2 : (row + 1) * n = row * n + n := by ring
      omega
  subst hr
  exact ⟨rfl, by omega⟩

theorem posIdx_lt_sq {n r c : Nat} (hr : r < n) (hc : c < n) :
    posIdx n r c < n * n := by
  have h1 : (r + 1) * n ≤ n * n := Nat.mul_le_mul_right n hr
  have h2 : (r + 1) * n = r * n + n := by ring
  unfold posIdx
  omega

theorem posIdx_ge_sq {n r c : Nat} (hr : n ≤ r) : n * n ≤ posIdx n r c := by
  have h1 : n * n ≤ r * n := Nat.mul_le_mul_right n hr
  unfold posIdx
  omega

/-- A cell counts as settled for the invariant when it already carries a
nonzero value or lies strictly before the current position. -/
def settled (n : Nat) (sol : Grid) (pos : Nat) (r c : Nat) : Prop :=
  sol r c ≠ 0 ∨ posIdx n r c < pos

/-- The invariant `color_g_seq` maintains along its success path, at
current row-major position `pos`:

* pre-set cells carry their board value;
* board-empty cells not yet visited are EMPTY;
* any two settled cells of a row or column differ;
* every inequality edge between two settled cells holds;
* a visited board-empty cell that was (legitimately) assigned the color
  0 has no EMPTY partner anywhere in its row or column — `safe` only
  lets 0 through when every other cell of the row and column is already
  nonzero. -/
structure Inv (p : Futoshiki) (sol : Grid) (pos : Nat) : Prop where
  presets : ∀ r c, r < p.size → c < p.size → p.board r c ≠ 0 → sol r c = p.board r c
  empties : ∀ r c, r < p.size → c < p.size → p.board r c = 0 →
    pos ≤ posIdx p.size r c → sol r c = 0
  uniqR : ∀ r c c', r < p.size → c < p.size → c' < p.size → c ≠ c' →
    settled p.size sol pos r c → settled p.size sol pos r c' → sol r c ≠ sol r c'
  uniqC : ∀ r r' c, r < p.size → r' < p.size → c < p.size → r ≠ r' →
    settled p.size sol pos r c → settled p.size sol pos r' c → sol r c ≠ sol r' c
  ineqH : ∀ r c, r < p.size → c + 1 < p.size →
    settled p.size sol pos r c → settled p.size sol pos r (c + 1) →
    consHolds (p.h_cons r c) (sol r c) (sol r (c + 1))
  ineqV : ∀ r c, r + 1 < p.size → c < p.size →
    settled p.size sol pos r c → settled p.size sol pos (r + 1) c →
    consHolds (p.v_cons r c) (sol r c) (sol (r + 1) c)
  zeros : ∀ r c, r < p.size → c < p.size → p.board r c = 0 →
    posIdx p.size r c < pos → sol r c = 0 →
    ∀ i, i < p.size → (i ≠ c → sol r i ≠ 0) ∧ (i ≠ r → sol i c ≠ 0)

/-- The invariant at any position at or beyond `size²` gives the
invariant at `size²` (all in-range cells are settled either way). -/
theorem Inv_cap {p : Futoshiki} {sol : Grid} {pos : Nat}
    (hge : p.size * p.size ≤ pos) (h : Inv p sol pos) :
    Inv p sol (p.size * p.size) := by
  have hset : ∀ r c, r < p.size → c < p.size →
      settled p.size sol (p.size * p.size) r c → settled p.size sol pos r c := by
    intro r c hr hc hs
    rcases hs with hs | hs
    · exact Or.inl hs
    · exact Or.inr (by omega)
  refine ⟨h.presets, ?_, ?_, ?_, ?_, ?_, ?_⟩
  · intro r c hr hc hb hge2
    exact absurd (posIdx_lt_sq hr hc) (by omega)
  · intro r c c' hr hc hc' hne h1 h2
    exact h.uniqR r c c' hr hc hc' hne (hset r c hr hc h1) (hset r c' hr hc' h2)
  · intro r r' c hr hr' hc hne h1 h2
    exact h.uniqC r r' c hr hr' hc hne (hset r c hr hc h1) (hset r' c hr' hc h2)
  · intro r c hr hc h1 h2
    exact h.ineqH r c hr hc (hset r c hr (by omega) h1) (hset r (c + 1) hr hc h2)
  · intro r c hr hc h1 h2
    exact h.ineqV r c hr hc (hset r c (by omega) hc h1) (hset (r + 1) c hr hc h2)
  · intro r c hr hc hb hlt hz
    exact h.zeros r c hr hc hb (by omega) hz

/-- Position transfer: the invariant only depends on the numeric
position. -/
theorem Inv_pos_eq {p : Futoshiki} {sol : Grid} {pos pos' : Nat}
    (he : pos = pos') (h : Inv p sol pos) : Inv p sol pos' := he ▸ h

theorem settled_succ_cases {n : Nat} {sol : Grid} {r c row col pos : Nat}
    (hc : c < n) (hcol : col < n) (hpos : pos = posIdx n row col)
    (h : settled n sol (pos + 1) r c) :
    settled n sol pos r c ∨ (r = row ∧ c = col) := by
  rcases h with h | h
  · exact Or.inl (Or.inl h)
  · rcases Nat.lt_or_ge (posIdx n r c) pos with h2 | h2
    · exact Or.inl (Or.inr h2)
    · have he : posIdx n r c = posIdx n row col := by omega
      exact Or.inr (posIdx_inj hc hcol he)

/-- Stepping over a pre-set cell preserves the invariant (the cell is
already settled and nothing is written). -/
theorem Inv_step_preset {p : Futoshiki} {sol : Grid} {row col : Nat}
    (hrow : row < p.size) (hcol : col < p.size) (hb : p.board row col ≠ 0)
    (h : Inv p sol (posIdx p.size row col)) :
    Inv p sol (posIdx p.size row col + 1) := by
  have hcur : settled p.size sol (posIdx p.size row col) row col :=
    Or.inl (by rw [h.presets row col hrow hcol hb]; exact hb)
  have hset : ∀ r c, c < p.size →
      settled p.size sol (posIdx p.size row col + 1) r c →
      settled p.size sol (posIdx p.size row col) r c := by
    intro r c hc hs
    rcases settled_succ_cases hc hcol rfl hs with hs | ⟨rfl, rfl⟩
    · exact hs
    · exact hcur
  refine ⟨h.presets, ?_, ?_, ?_, ?_, ?_, ?_⟩
  · intro r c hr hc hb' hge
    exact h.empties r c hr hc hb' (by omega)
  · intro r c c' hr hc hc' hne h1 h2
    exact h.uniqR r c c' hr hc hc' hne (hset r c hc h1) (hset r c' hc' h2)
  · intro r r' c hr hr' hc hne h1 h2
    exact h.uniqC r r' c hr hr' hc hne (hset r c hc h1) (hset r' c hc h2)
  · intro r c hr hc h1 h2
    exact h.ineqH r c hr hc (hset r c (by omega) h1) (hset r (c + 1) hc h2)
  · intro r c hr hc h1 h2
    exact h.ineqV r c hr hc (hset r c hc h1) (hset (r + 1) c hc h2)
  · intro r c hr hc hb' hlt hz
    rcases Nat.lt_or_ge (posIdx p.size r c) (posIdx p.size row col) with h2 | h2
    · exact h.zeros r c hr hc hb' h2 hz
    · have he : posIdx p.size r c = posIdx p.size row col := by omega
      obtain ⟨rfl, rfl⟩ := posIdx_inj hc hcol he
      exact absurd hb' hb

/-- The heart of soundness: writing a color that passed `safe` into the
current (board-empty) cell preserves the invariant at the next
position. -/
theorem Inv_step_assign {p : Futoshiki} {sol : Grid} {row col : Nat} {color : Int}
    (hrow : row < p.size) (hcol : col < p.size) (hb : p.board row col = 0)
    (hsafe : safe p row col sol color = true)
    (h : Inv p sol (posIdx p.size row col)) :
    Inv p (upd2 sol row col color) (posIdx p.size row col + 1) := by
  have hsc : neighborCond p row col sol color ∧ noDupCond p row col sol color := by
    have h0 := (safe_true_iff p row col sol color).mp hsafe
    rwa [if_neg (by simp [hb])] at h0
  obtain ⟨⟨hn1, hn2, hn3, hn4⟩, hdup⟩ := hsc
  have hsolcur : sol row col = 0 := h.empties row col hrow hcol hb (le_refl _)
  have hcurns : ¬ settled p.size sol (posIdx p.size row col) row col := by
    rintro (hs | hs)
    · exact hs hsolcur
    · exact absurd hs (lt_irrefl _)
  have hne_of_settled : ∀ r c, settled p.size sol (posIdx p.size row col) r c →
      ¬(r = row ∧ c = col) := by
    rintro r c hs ⟨rfl, rfl⟩
    exact hcurns hs
  have hval : ∀ r c, settled p.size sol (posIdx p.size row col) r c →
      upd2 sol row col color r c = sol r c := fun r c hs =>
    upd2_ne (hne_of_settled r c hs)
  have hset : ∀ r c, c < p.size →
      settled p.size (upd2 sol row col color) (posIdx p.size row col + 1) r c →
      settled p.size sol (posIdx p.size row col) r c ∨ (r = row ∧ c = col) := by
    intro r c hc hs
    by_cases he : r = row ∧ c = col
    · exact Or.inr he
    · rcases hs with hs | hs
      · rw [upd2_ne he] at hs
        exact Or.inl (Or.inl hs)
      · rcases Nat.lt_or_ge (posIdx p.size r c) (posIdx p.size row col) with h2 | h2
        · exact Or.inl (Or.inr h2)
        · exact absurd (posIdx_inj hc hcol (by omega)) he
  -- an old-settled cell in the current row or column is nonzero
  have hval_nz : ∀ r c, r < p.size → c < p.size →
      settled p.size sol (posIdx p.size row col) r c →
      (r = row ∨ c = col) → ¬(r = row ∧ c = col) → sol r c ≠ 0 := by
    intro r c hr hc hs hline hne hz0
    rcases hs with hv | hp
    · exact hv hz0
    · have hbc : p.board r c = 0 := by
        by_contra hbc
        rw [h.presets r c hr hc hbc] at hz0
        exact hbc hz0
      have hzold := h.zeros r c hr hc hbc hp hz0
      rcases hline with hre | hce
      · subst hre
        have hcne : c ≠ col := fun hce => hne ⟨rfl, hce⟩
        exact (hzold col hcol).1 (Ne.symm hcne) hsolcur
      · subst hce
        have hrne : r ≠ row := fun hre => hne ⟨hre, rfl⟩
        exact (hzold row hrow).2 (Ne.symm hrne) hsolcur
  refine ⟨?_, ?_, ?_, ?_, ?_, ?_, ?_⟩
  · intro r c hr hc hb'
    have hne : ¬(r = row ∧ c = col) := by
      rintro ⟨rfl, rfl⟩
      exact hb' hb
    rw [upd2_ne hne]
    exact h.presets r c hr hc hb'
  · intro r c hr hc hb' hge
    have hne : ¬(r = row ∧ c = col) := by
      rintro ⟨rfl, rfl⟩
      omega
    rw [upd2_ne hne]
    exact h.empties r c hr hc hb' (by omega)
  · -- row uniqueness
    intro r c c' hr hc hc' hne h1 h2
    rcases hset r c hc h1 with hs1 | he
    · rcases hset r c' hc' h2 with hs2 | he'
      · rw [hval r c hs1, hval r c' hs2]
        exact h.uniqR r c c' hr hc hc' hne hs1 hs2
      · obtain ⟨he1, he2⟩ := he'
        rw [hval r c hs1, he1, he2, upd2_self]
        exact (hdup c hc).1 (he2 ▸ hne)
    · obtain ⟨he1, he2⟩ := he
      rcases hset r c' hc' h2 with hs2 | he'
      · rw [he1, he2, upd2_self, hval row c' (he1 ▸ hs2)]
        exact Ne.symm ((hdup c' hc').1 (fun hcc => hne (he2.trans hcc.symm)))
      · obtain ⟨he1', he2'⟩ := he'
        exact absurd (he2.trans he2'.symm) hne
  · -- column uniqueness
    intro r r' c hr hr' hc hne h1 h2
    rcases hset r c hc h1 with hs1 | he
    · rcases hset r' c hc h2 with hs2 | he'
      · rw [hval r c hs1, hval r' c hs2]
        exact h.uniqC r r' c hr hr' hc hne hs1 hs2
      · obtain ⟨he1, he2⟩ := he'
        rw [hval r c hs1, he1, he2, upd2_self]
        exact (hdup r hr).2 (he1 ▸ hne)
    · obtain ⟨he1, he2⟩ := he
      rcases hset r' c hc h2 with hs2 | he'
      · rw [he1, he2, upd2_self, hval r' col (he2 ▸ hs2)]
        exact Ne.symm ((hdup r' hr').2 (fun hrr => hne (he1.trans hrr.symm)))
      · obtain ⟨he1', he2'⟩ := he'
        exact absurd (he1.trans he1'.symm) hne
  · -- horizontal inequalities
    intro r c hr hc h1 h2
    rcases hset r c (by omega) h1 with hs1 | he
    · rcases hset r (c + 1) hc h2 with hs2 | he'
      · rw [hval _ _ hs1, hval _ _ hs2]
        exact h.ineqH r c hr hc hs1 hs2
      · obtain ⟨he1, he2⟩ := he'
        have hc1 : col - 1 = c := by omega
        have hnz : sol r c ≠ 0 := by
          refine hval_nz r c hr (by omega) hs1 (Or.inl he1) ?_
          rintro ⟨-, hcc⟩
          omega
        have hcons := hn1 (by omega) (by rw [hc1, ← he1]; exact hnz)
        rw [hc1, ← he1] at hcons
        have hup : upd2 sol row col color r (c + 1) = color := by
          rw [he1, he2]
          exact upd2_self _ _ _ _
        rw [hval r c hs1, hup]
        exact hcons
    · obtain ⟨he1, he2⟩ := he
      rcases hset r (c + 1) hc h2 with hs2 | he'
      · have hnz : sol r (c + 1) ≠ 0 := by
          refine hval_nz r (c + 1) hr hc hs2 (Or.inl he1) ?_
          rintro ⟨-, hcc⟩
          omega
        have hcons := hn2 (by omega) (by rw [← he1, ← he2]; exact hnz)
        rw [← he1, ← he2] at hcons
        have hup : upd2 sol row col color r c = color := by
          rw [he1, he2]
          exact upd2_self _ _ _ _
        rw [hup, hval r (c + 1) hs2]
        exact hcons
      · obtain ⟨he1', he2'⟩ := he'
        omega
  · -- vertical inequalities
    intro r c hr hc h1 h2
    rcases hset r c hc h1 with hs1 | he
    · rcases hset (r + 1) c hc h2 with hs2 | he'
      · rw [hval _ _ hs1, hval _ _ hs2]
        exact h.ineqV r c hr hc hs1 hs2
      · obtain ⟨he1, he2⟩ := he'
        have hr1 : row - 1 = r := by omega
        have hnz : sol r c ≠ 0 := by
          refine hval_nz r c (by omega) hc hs1 (Or.inr he2) ?_
          rintro ⟨hrr, -⟩
          omega
        have hcons := hn3 (by omega) (by rw [hr1, ← he2]; exact hnz)
        rw [hr1, ← he2] at hcons
        have hup : upd2 sol row col color (r + 1) c = color := by
          rw [he1, he2]
          exact upd2_self _ _ _ _
        rw [hval r c hs1, hup]
        exact hcons
    · obtain ⟨he1, he2⟩ := he
      rcases hset (r + 1) c hc h2 with hs2 | he'
      · have hnz : sol (r + 1) c ≠ 0 := by
          refine hval_nz (r + 1) c hr hc hs2 (Or.inr he2) ?_
          rintro ⟨hrr, -⟩
          omega
        have hcons := hn4 (by omega) (by rw [← he1, ← he2]; exact hnz)
        rw [← he1, ← he2] at hcons
        have hup : upd2 sol row col color r c = color := by
          rw [he1, he2]
          exact upd2_self _ _ _ _
        rw [hup, hval (r + 1) c hs2]
        exact hcons
      · obtain ⟨he1', he2'⟩ := he'
        omega
  · -- the zero-cell bookkeeping
    intro r c hr hc hb' hlt hz
    by_cases he : r = row ∧ c = col
    · obtain ⟨he1, he2⟩ := he
      have hz' : color = 0 := by
        rw [he1, he2, upd2_self] at hz
        exact hz
      intro i hi
      constructor
      · intro hic
        have hnz := (hdup i hi).1 (he2 ▸ hic)
        rw [hz'] at hnz
        rw [he1, upd2_ne (by rintro ⟨-, hcc⟩; exact (he2 ▸ hic) hcc)]
        exact hnz
      · intro hir
        have hnz := (hdup i hi).2 (he1 ▸ hir)
        rw [hz'] at hnz
        rw [he2, upd2_ne (by rintro ⟨hrr, -⟩; exact (he1 ▸ hir) hrr)]
        exact hnz
    · have hlt' : posIdx p.size r c < posIdx p.size row col := by
        rcases Nat.lt_or_ge (posIdx p.size r c) (posIdx p.size row col) with h2 | h2
        · exact h2
        · exact absurd (posIdx_inj hc hcol (by omega)) he
      rw [upd2_ne he] at hz
      have hzold := h.zeros r c hr hc hb' hlt' hz
      have hrne : r ≠ row := by
        intro hre
        subst hre
        have hcne : c ≠ col := fun hce => he ⟨rfl, hce⟩
        exact (hzold col hcol).1 (Ne.symm hcne) hsolcur
      have hcne : c ≠ col := by
        intro hce
        subst hce
        exact (hzold row hrow).2 (Ne.symm hrne) hsolcur
      intro i hi
      obtain ⟨z1, z2⟩ := hzold i hi
      constructor
      · intro hic
        rw [upd2_ne (by rintro ⟨hre, -⟩; exact hrne hre)]
        exact z1 hic
      · intro hir
        rw [upd2_ne (by rintro ⟨-, hce⟩; exact hcne hce)]
        exact z2 hir

/-! ### Backtracker soundness (claim C1): running the invariant home -/

theorem posIdx_le_of_cellGE {n row col r c : Nat} (hcol : col ≤ n)
    (h : cellGE row col r c) : posIdx n row col ≤ posIdx n r c := by
  rcases h with h | ⟨he, h⟩
  · have h1 : (row + 1) * n ≤ r * n := Nat.mul_le_mul_right n h
    have h2 : (row + 1) * n = row * n + n := by ring
    unfold posIdx
    omega
  · subst he
    unfold posIdx
    omega

/-- The invariant only looks at in-range cells, so it transfers between
grids that agree on the `size × size` square. -/
theorem Inv_congr {p : Futoshiki} {sol sol2 : Grid} {pos : Nat}
    (hagree : ∀ r c, r < p.size → c < p.size → sol2 r c = sol r c)
    (h : Inv p sol pos) : Inv p sol2 pos := by
  have hsettled : ∀ r c, r < p.size → c < p.size →
      settled p.size sol2 pos r c → settled p.size sol pos r c := by
    intro r c hr hc hs
    rcases hs with hs | hs
    · exact Or.inl (hagree r c hr hc ▸ hs)
    · exact Or.inr hs
  refine ⟨?_, ?_, ?_, ?_, ?_, ?_, ?_⟩
  · intro r c hr hc hb
    rw [hagree r c hr hc]
    exact h.presets r c hr hc hb
  · intro r c hr hc hb hge
    rw [hagree r c hr hc]
    exact h.empties r c hr hc hb hge
  · intro r c c' hr hc hc' hne h1 h2
    rw [hagree r c hr hc, hagree r c' hr hc']
    exact h.uniqR r c c' hr hc hc' hne (hsettled r c hr hc h1) (hsettled r c' hr hc' h2)
  · intro r r' c hr hr' hc hne h1 h2
    rw [hagree r c hr hc, hagree r' c hr' hc]
    exact h.uniqC r r' c hr hr' hc hne (hsettled r c hr hc h1) (hsettled r' c hr' hc h2)
  · intro r c hr hc h1 h2
    rw [hagree r c hr (by omega), hagree r (c + 1) hr hc]
    exact h.ineqH r c hr hc (hsettled r c hr (by omega) h1) (hsettled r (c + 1) hr hc h2)
  · intro r c hr hc h1 h2
    rw [hagree r c (by omega) hc, hagree (r + 1) c hr hc]
    exact h.ineqV r c hr hc (hsettled r c (by omega) hc h1) (hsettled (r + 1) c hr hc h2)
  · intro r c hr hc hb hlt hz
    rw [hagree r c hr hc] at hz
    intro i hi
    obtain ⟨z1, z2⟩ := h.zeros r c hr hc hb hlt hz i hi
    constructor
    · intro hic
      rw [hagree r i hr hi]
      exact z1 hic
    · intro hir
      rw [hagree i c hi hc]
      exact z2 hir

/-- Along its success path `color_g_seq` carries the invariant to the
end of the grid, and it fills every board-empty cell at or after its
start position with one of that cell's candidates. -/
theorem colorGSeq_sound (p : Futoshiki) :
    ∀ (sol : Grid) (row col : Nat),
      col ≤ p.size →
      Inv p sol (posIdx p.size row col) →
      (colorGSeq p sol row col).1 = true →
      Inv p (colorGSeq p sol row col).2 (p.size * p.size) ∧
      (∀ r c, r < p.size → c < p.size → p.board r c = 0 → cellGE row col r c →
        (colorGSeq p sol row col).2 r c ∈ p.cands r c) := by
  refine colorGSeq.induct p
    (fun sol row col =>
      col ≤ p.size →
      Inv p sol (posIdx p.size row col) →
      (colorGSeq p sol row col).1 = true →
      Inv p (colorGSeq p sol row col).2 (p.size * p.size) ∧
      (∀ r c, r < p.size → c < p.size → p.board r c = 0 → cellGE row col r c →
        (colorGSeq p sol row col).2 r c ∈ p.cands r c))
    (fun sol row col hcol2 l =>
      row < p.size →
      p.board row col = 0 →
      (∀ x, x ∈ l → x ∈ p.cands row col) →
      Inv p sol (posIdx p.size row col) →
      (tryCands p sol row col hcol2 l).1 = true →
      Inv p (tryCands p sol row col hcol2 l).2 (p.size * p.size) ∧
      (∀ r c, r < p.size → c < p.size → p.board r c = 0 → cellGE row col r c →
        (tryCands p sol row col hcol2 l).2 r c ∈ p.cands r c))
    ?_ ?_ ?_ ?_ ?_ ?_ ?_ ?_
  · intro sol row col hr hcol hInv hsucc
    rw [colorGSeq, dif_pos hr]
    refine ⟨Inv_cap (posIdx_ge_sq hr) hInv, ?_⟩
    intro r c hrc hc hb hge
    rcases hge with hge | ⟨hge, -⟩ <;> omega
  · intro sol row col hr hc2 ih hcol hInv hsucc
    rw [colorGSeq, dif_neg hr, dif_pos hc2] at hsucc ⊢
    have hce : col = p.size := by omega
    subst hce
    have hpe : posIdx p.size row p.size = posIdx p.size (row + 1) 0 := by
      unfold posIdx; ring
    obtain ⟨hi1, hi2⟩ := ih (Nat.zero_le _) (Inv_pos_eq hpe hInv) hsucc
    refine ⟨hi1, ?_⟩
    intro r c hrc hc hb hge
    refine hi2 r c hrc hc hb ?_
    unfold cellGE at hge ⊢
    omega
  · intro sol row col hr hc2 hb ih hcol hInv hsucc
    rw [colorGSeq, dif_neg hr, dif_neg hc2, if_pos hb] at hsucc ⊢
    have hInv2 : Inv p (upd2 sol row col (p.board row col))
        (posIdx p.size row (col + 1)) := by
      refine Inv_pos_eq (posIdx_succ p.size row col).symm ?_
      have hup : upd2 sol row col (p.board row col) = sol := by
        funext r2 c2
        unfold upd2
        split
        · next he =>
            obtain ⟨rfl, rfl⟩ := he
            exact (hInv.presets _ _ (by omega) (by omega) hb).symm
        · rfl
      rw [hup]
      exact Inv_step_preset (by omega) (by omega) hb hInv
    obtain ⟨hi1, hi2⟩ := ih (by omega) hInv2 hsucc
    refine ⟨hi1, ?_⟩
    intro r c hrc hc hbe hge
    refine hi2 r c hrc hc hbe ?_
    have hne : r ≠ row ∨ c ≠ col := by
      by_cases h1 : r = row
      · subst h1
        refine Or.inr fun h2 => ?_
        subst h2
        exact hb hbe
      · exact Or.inl h1
    unfold cellGE at hge ⊢
    omega
  · intro sol row col hr hc2 hb ih hcol hInv hsucc
    rw [colorGSeq, dif_neg hr, dif_neg hc2, if_neg hb] at hsucc ⊢
    exact ih (by omega) (by simpa using hb) (fun x hx => hx) hInv hsucc
  · intro sol row col hcol2 hrow hbe hsub hInv hsucc
    rw [tryCands] at hsucc
    simp at hsucc
  · intro sol row col hcol2 color rest hsafe res hres ih hrow hbe hsub hInv hsucc
    have heq : tryCands p sol row col hcol2 (color :: rest) = res := by
      rw [tryCands, if_pos hsafe]
      show (if res.1 then res else
        tryCands p (upd2 res.2 row col 0) row col hcol2 rest) = res
      rw [if_pos hres]
    rw [heq] at hsucc ⊢
    have hInv2 : Inv p (upd2 sol row col color) (posIdx p.size row (col + 1)) :=
      Inv_pos_eq (posIdx_succ p.size row col).symm
        (Inv_step_assign hrow hcol2 hbe hsafe hInv)
    have hres2 : (colorGSeq p (upd2 sol row col color) row (col + 1)).1 = true := hres
    obtain ⟨hi1, hi2⟩ := ih (by omega) hInv2 hres2
    have hresE : res = colorGSeq p (upd2 sol row col color) row (col + 1) := rfl
    refine ⟨hresE ▸ hi1, ?_⟩
    intro r c hrc hc hbE hge
    by_cases he : r = row ∧ c = col
    · obtain ⟨he1, he2⟩ := he
      have hfr := colorGSeq_frames p (upd2 sol row col color) row (col + 1)
        (by omega) row col hcol2 (by rw [posIdx_succ]; omega)
      have hv : res.2 r c = color := by
        rw [he1, he2, hresE, hfr, upd2_self]
      rw [hv, he1, he2]
      exact hsub color (List.mem_cons_self _ _)
    · rw [hresE]
      refine hi2 r c hrc hc hbE ?_
      have hne : r ≠ row ∨ c ≠ col := by tauto
      unfold cellGE at hge ⊢
      omega
  · intro sol row col hcol2 color rest hsafe res hres ih1 ih2 hrow hbe hsub hInv hsucc
    have hres2 : (colorGSeq p (upd2 sol row col color) row (col + 1)).1 = false := by
      have h1 : res.1 ≠ true := hres
      exact Bool.not_eq_true _ ▸ (Bool.eq_false_iff.mpr h1)
    have heq : tryCands p sol row col hcol2 (color :: rest) =
        tryCands p (upd2 res.2 row col 0) row col hcol2 rest := by
      rw [tryCands, if_pos hsafe]
      show (if res.1 then res else
        tryCands p (upd2 res.2 row col 0) row col hcol2 rest) = _
      rw [if_neg hres]
    rw [heq] at hsucc ⊢
    have hempty1 : ∀ r c, r < p.size → c < p.size → p.board r c = 0 →
        cellGE row (col + 1) r c → upd2 sol row col color r c = 0 := by
      intro r c h1 h2 h3 h4
      have hne : ¬(r = row ∧ c = col) := by
        rintro ⟨rfl, rfl⟩
        unfold cellGE at h4
        omega
      rw [upd2_ne hne]
      refine hInv.empties r c h1 h2 h3 ?_
      have h5 := posIdx_le_of_cellGE (n := p.size) (by omega) h4
      rw [posIdx_succ] at h5
      omega
    obtain ⟨r1, r2⟩ := colorGSeq_restore p (upd2 sol row col color) row (col + 1)
      hempty1 hres2
    have hsolc : sol row col = 0 := hInv.empties row col hrow hcol2 hbe (le_refl _)
    have hresE : res = colorGSeq p (upd2 sol row col color) row (col + 1) := rfl
    have hagree : ∀ r c, r < p.size → c < p.size →
        upd2 res.2 row col 0 r c = sol r c := by
      intro r c hr hc
      by_cases he : r = row ∧ c = col
      · obtain ⟨rfl, rfl⟩ := he
        rw [upd2_self, hsolc]
      · rw [upd2_ne he, hresE]
        by_cases hb2 : p.board r c = 0
        · rw [r1 r c hb2, upd2_ne he]
        · rcases r2 r c hb2 with hcase | hcase
          · rw [hcase, upd2_ne he]
          · rw [hcase]
            exact (hInv.presets r c hr hc hb2).symm
    have hInv2 : Inv p (upd2 res.2 row col 0) (posIdx p.size row col) :=
      Inv_congr hagree hInv
    exact ih2 hrow hbe (fun x hx => hsub x (List.mem_cons_of_mem _ hx)) hInv2 hsucc
  · intro sol row col hcol2 color rest hsafe ih hrow hbe hsub hInv hsucc
    rw [tryCands, if_neg hsafe] at hsucc ⊢
    exact ih hrow hbe (fun x hx => hsub x (List.mem_cons_of_mem _ hx)) hInv hsucc

/-- Claim C1: under the additional hypothesis that the pre-set cells
are mutually consistent, a successful `color_g_seq` run from `(0,0)` on
a grid initialized from the board produces a grid satisfying every
row/column uniqueness constraint and every inequality constraint, and
agreeing with the board on pre-set cells.  (Without that hypothesis the
claim fails: `safe` never checks a pre-set cell against the other
cells, see `C1_counterexample`.) -/
theorem C1_backtracker_soundness (p : Futoshiki) (hok : presetsOK p)
    (hsucc : (colorGSeq p p.board 0 0).1 = true) :
    validGrid p (colorGSeq p p.board 0 0).2 := by
  obtain ⟨u1, u2, u3, u4⟩ := hok
  have hInv0 : Inv p p.board 0 := by
    refine ⟨?_, ?_, ?_, ?_, ?_, ?_, ?_⟩
    · intro r c _ _ _
      rfl
    · intro r c _ _ hb _
      exact hb
    · intro r c c' hr hc hc' hne h1 h2
      exact u1 r c c' hr hc hc' hne (h1.resolve_right (by omega))
        (h2.resolve_right (by omega))
    · intro r r' c hr hr' hc hne h1 h2
      exact u2 r r' c hr hr' hc hne (h1.resolve_right (by omega))
        (h2.resolve_right (by omega))
    · intro r c hr hc h1 h2
      exact u3 r c hr hc (h1.resolve_right (by omega)) (h2.resolve_right (by omega))
    · intro r c hr hc h1 h2
      exact u4 r c hr hc (h1.resolve_right (by omega)) (h2.resolve_right (by omega))
    · intro r c hr hc hb hlt hz
      exact absurd hlt (Nat.not_lt_zero _)
  have hInv1 : Inv p p.board (posIdx p.size 0 0) :=
    Inv_pos_eq (by unfold posIdx; omega) hInv0
  obtain ⟨hfin, -⟩ := colorGSeq_sound p p.board 0 0 (Nat.zero_le _) hInv1 hsucc
  have hall : ∀ r c, r < p.size → c < p.size →
      settled p.size (colorGSeq p p.board 0 0).2 (p.size * p.size) r c :=
    fun r c hr hc => Or.inr (posIdx_lt_sq hr hc)
  refine ⟨?_, ?_, ?_, ?_, ?_⟩
  · intro r c c' hr hc hc' hne
    exact hfin.uniqR r c c' hr hc hc' hne (hall r c hr hc) (hall r c' hr hc')
  · intro r r' c hr hr' hc hne
    exact hfin.uniqC r r' c hr hr' hc hne (hall r c hr hc) (hall r' c hr' hc)
  · intro r c hr hc
    exact hfin.ineqH r c hr hc (hall r c hr (by omega)) (hall r (c + 1) hr hc)
  · intro r c hr hc
    exact hfin.ineqV r c hr hc (hall r c (by omega) hc) (hall (r + 1) c hr hc)
  · intro r c hr hc hb
    exact hfin.presets r c hr hc hb

/-- A 2×2 puzzle whose pre-set cells are mutually inconsistent: every
cell is pre-set to 1. -/
def puzC1 : Futoshiki :=
  { size := 2
    board := fun _ _ => 1
    h_cons := fun _ _ => Cons.none
    v_cons := fun _ _ => Cons.none
    cands := fun _ _ => [] }

theorem colorGSeq_puzC1 :
    (colorGSeq puzC1 puzC1.board 0 0).1 = true ∧
    (colorGSeq puzC1 puzC1.board 0 0).2 0 0 =
      (colorGSeq puzC1 puzC1.board 0 0).2 0 1 := by
  rw [colorGSeq, dif_neg (show ¬(puzC1.size ≤ 0) by decide),
    dif_neg (show ¬(puzC1.size ≤ 0) by decide),
    if_pos (show puzC1.board 0 0 ≠ 0 by decide)]
  rw [colorGSeq, dif_neg (show ¬(puzC1.size ≤ 0) by decide),
    dif_neg (show ¬(puzC1.size ≤ 1) by decide),
    if_pos (show puzC1.board 0 1 ≠ 0 by decide)]
  rw [colorGSeq, dif_neg (show ¬(puzC1.size ≤ 0) by decide),
    dif_pos (show puzC1.size ≤ 2 by decide)]
  rw [colorGSeq, dif_neg (show ¬(puzC1.size ≤ 1) by decide),
    dif_neg (show ¬(puzC1.size ≤ 0) by decide),
    if_pos (show puzC1.board 1 0 ≠ 0 by decide)]
  rw [colorGSeq, dif_neg (show ¬(puzC1.size ≤ 1) by decide),
    dif_neg (show ¬(puzC1.size ≤ 1) by decide),
    if_pos (show puzC1.board 1 1 ≠ 0 by decide)]
  rw [colorGSeq, dif_neg (show ¬(puzC1.size ≤ 1) by decide),
    dif_pos (show puzC1.size ≤ 2 by decide)]
  rw [colorGSeq, dif_pos (show puzC1.size ≤ 2 by decide)]
  exact ⟨rfl, rfl⟩

/-- Claim C1 counterexample: on `puzC1` (every cell of a 2×2 board
pre-set to 1) `color_g_seq` from `(0,0)` on a grid initialized from the
board returns true, yet the resulting grid violates row uniqueness —
the unconditional claim is false. -/
theorem C1_counterexample :
    (colorGSeq puzC1 puzC1.board 0 0).1 = true ∧
    ¬ validGrid puzC1 (colorGSeq puzC1 puzC1.board 0 0).2 := by
  obtain ⟨h1, h2⟩ := colorGSeq_puzC1
  exact ⟨h1, fun hv => hv.1 0 0 1 (by decide) (by decide) (by decide) (by decide) h2⟩

/-- A consistent 1×1 puzzle with its only cell pre-set to 1. -/
def puzC1w : Futoshiki :=
  { size := 1
    board := fun _ _ => 1
    h_cons := fun _ _ => Cons.none
    v_cons := fun _ _ => Cons.none
    cands := fun _ _ => [] }

theorem presetsOK_puzC1w : presetsOK puzC1w := by
  have hs : puzC1w.size = 1 := rfl
  refine ⟨?_, ?_, ?_, ?_⟩
  · intro r c c' h1 h2 h3 h4
    rw [hs] at h2 h3
    exact absurd (show c = c' by omega) h4
  · intro r r' c h1 h2 h3 h4
    rw [hs] at h1 h2
    exact absurd (show r = r' by omega) h4
  · intro r c h1 h2
    rw [hs] at h2
    exact absurd h2 (by omega)
  · intro r c h1 h2
    rw [hs] at h1
    exact absurd h1 (by omega)

theorem colorGSeq_puzC1w :
    (colorGSeq puzC1w puzC1w.board 0 0).1 = true := by
  rw [colorGSeq, dif_neg (show ¬(puzC1w.size ≤ 0) by decide),
    dif_neg (show ¬(puzC1w.size ≤ 0) by decide),
    if_pos (show puzC1w.board 0 0 ≠ 0 by decide)]
  rw [colorGSeq, dif_neg (show ¬(puzC1w.size ≤ 0) by decide),
    dif_pos (show puzC1w.size ≤ 1 by decide)]
  rw [colorGSeq, dif_pos (show puzC1w.size ≤ 1 by decide)]

theorem C1_witness :
    presetsOK puzC1w ∧ (colorGSeq puzC1w puzC1w.board 0 0).1 = true ∧
      validGrid puzC1w (colorGSeq puzC1w puzC1w.board 0 0).2 :=
  ⟨presetsOK_puzC1w, colorGSeq_puzC1w,
    C1_backtracker_soundness puzC1w presetsOK_puzC1w colorGSeq_puzC1w⟩

/-! ### Backtracker completeness under pre-coloring (claim C2) -/

theorem removeFrom_keep {y : Futoshiki} {a b r c : Nat} {color v : Int}
    (hv : v ∈ y.cands r c) (hne : v ≠ color) :
    v ∈ (removeFrom y a b color).cands r c := by
  by_cases he : r = a ∧ c = b
  · obtain ⟨he1, he2⟩ := he
    subst he1
    subst he2
    have h1 : (removeFrom y r c color).cands r c =
        (y.cands r c).filter fun x2 => x2 != color := by
      simp [removeFrom, setCands]
    rw [h1, List.mem_filter]
    exact ⟨hv, by simpa using hne⟩
  · rwa [removeFrom_cands_ne he]

/-- `satisfies_inequalities` accepts the value a solution `T` puts in
the cell, as long as every neighbor's candidate list still contains the
neighbor's `T`-value. -/
theorem satisfies_T {p x : Futoshiki} {T : Grid} (hst : sameStatic x p)
    (hT : IsSolution p T)
    (hP : ∀ r c, r < p.size → c < p.size → T r c ∈ x.cands r c)
    {row col : Nat} (hrow : row < p.size) (hcol : col < p.size) :
    satisfies_inequalities x row col (T row col) = true := by
  obtain ⟨hrange, hu1, hu2, hh, hv, hpre⟩ := hT
  unfold satisfies_inequalities
  rw [hst.2.2.1, hst.2.2.2, hst.1]
  simp only [Bool.and_eq_true]
  have hgl : ∀ a b, a < p.size → b < p.size → ∀ color : Int, color < T a b →
      has_valid_neighbor x a b color true = true := by
    intro a b ha hb color hlt
    unfold has_valid_neighbor
    rw [List.any_eq_true]
    exact ⟨T a b, hP a b ha hb, by simpa using hlt⟩
  have hsl : ∀ a b, a < p.size → b < p.size → ∀ color : Int, T a b < color →
      has_valid_neighbor x a b color false = true := by
    intro a b ha hb color hlt
    unfold has_valid_neighbor
    rw [List.any_eq_true]
    exact ⟨T a b, hP a b ha hb, by simpa using hlt⟩
  refine ⟨⟨⟨?_, ?_⟩, ?_⟩, ?_⟩
  · by_cases h0 : 0 < col
    · rw [if_pos h0]
      have hcons := hh row (col - 1) hrow (by omega)
      rw [show col - 1 + 1 = col by omega] at hcons
      cases hc1 : p.h_cons row (col - 1) with
      | none => rfl
      | greater =>
        rw [hc1] at hcons
        exact hgl row (col - 1) hrow (by omega) (T row col) hcons
      | smaller =>
        rw [hc1] at hcons
        exact hsl row (col - 1) hrow (by omega) (T row col) hcons
    · rw [if_neg h0]
  · by_cases h0 : col + 1 < p.size
    · rw [if_pos h0]
      have hcons := hh row col hrow h0
      cases hc1 : p.h_cons row col with
      | none => rfl
      | greater =>
        rw [hc1] at hcons
        exact hsl row (col + 1) hrow h0 (T row col) hcons
      | smaller =>
        rw [hc1] at hcons
        exact hgl row (col + 1) hrow h0 (T row col) hcons
    · rw [if_neg h0]
  · by_cases h0 : 0 < row
    · rw [if_pos h0]
      have hcons := hv (row - 1) col (by omega) hcol
      rw [show row - 1 + 1 = row by omega] at hcons
      cases hc1 : p.v_cons (row - 1) col with
      | none => rfl
      | greater =>
        rw [hc1] at hcons
        exact hgl (row - 1) col (by omega) hcol (T row col) hcons
      | smaller =>
        rw [hc1] at hcons
        exact hsl (row - 1) col (by omega) hcol (T row col) hcons
    · rw [if_neg h0]
  · by_cases h0 : row + 1 < p.size
    · rw [if_pos h0]
      have hcons := hv row col h0 hcol
      cases hc1 : p.v_cons row col with
      | none => rfl
      | greater =>
        rw [hc1] at hcons
        exact hsl (row + 1) col h0 hcol (T row col) hcons
      | smaller =>
        rw [hc1] at hcons
        exact hgl (row + 1) col h0 hcol (T row col) hcons
    · rw [if_neg h0]

theorem filter_keep {p x : Futoshiki} {T : Grid} (hst : sameStatic x p)
    (hT : IsSolution p T)
    (hP : ∀ r c, r < p.size → c < p.size → T r c ∈ x.cands r c)
    {row col : Nat} (hrow : row < p.size) (hcol : col < p.size) :
    ∀ r c, r < p.size → c < p.size →
      T r c ∈ (filter_possible_colors x row col).cands r c := by
  intro r c hr hc
  by_cases he : r = row ∧ c = col
  · obtain ⟨he1, he2⟩ := he
    subst he1
    subst he2
    unfold filter_possible_colors
    by_cases hb : x.board r c ≠ 0
    · rw [if_pos hb]
      have h1 : (setCands x r c [x.board r c]).cands r c = [x.board r c] := by
        simp [setCands]
      rw [h1]
      have hb2 : p.board r c ≠ 0 := by rwa [hst.2.1] at hb
      rw [hst.2.1, hT.2.2.2.2.2 r c hr hc hb2]
      exact List.mem_singleton.mpr rfl
    · rw [if_neg hb]
      have h1 : (setCands x r c ((x.cands r c).filter
          fun color => satisfies_inequalities x r c color)).cands r c =
          (x.cands r c).filter fun color => satisfies_inequalities x r c color := by
        simp [setCands]
      rw [h1, List.mem_filter]
      exact ⟨hP r c hr hc, satisfies_T hst hT hP hr hc⟩
  · rw [filter_cands_ne he]
    exact hP r c hr hc

theorem process_uniqueness_keep {p x : Futoshiki} {T : Grid}
    (hst : sameStatic x p) (hT : IsSolution p T)
    (hP : ∀ r c, r < p.size → c < p.size → T r c ∈ x.cands r c)
    {row col : Nat} (hrow : row < p.size) (hcol : col < p.size) :
    ∀ r c, r < p.size → c < p.size →
      T r c ∈ (process_uniqueness x row col).cands r c := by
  obtain ⟨hrange, hu1, hu2, hh, hv, hpre⟩ := hT
  unfold process_uniqueness
  split
  · next hlen =>
    have hmem := hP row col hrow hcol
    have hhead : (x.cands row col).headI = T row col := by
      rcases hx : x.cands row col with _ | ⟨a, l⟩
      · rw [hx] at hmem
        exact absurd hmem (List.not_mem_nil _)
      · rw [hx] at hmem hlen
        rcases l with _ | ⟨b, l2⟩
        · simp only [List.mem_singleton] at hmem
          rw [List.headI, hmem]
        · simp at hlen
    rw [hhead]
    intro r c hr hc
    revert r c
    refine foldl_preserve_mem
      (fun y : Futoshiki => ∀ r c, r < p.size → c < p.size → T r c ∈ y.cands r c)
      _ _ _ ?_ hP
    intro y i hi hy r c hr hc
    have hi2 : i < p.size := by
      have h6 := List.mem_range.mp hi
      rwa [hst.1] at h6
    have hkeepR : ∀ z : Futoshiki, T r c ∈ z.cands r c → i ≠ col →
        T r c ∈ (removeFrom z row i (T row col)).cands r c := by
      intro z hz hic
      by_cases he : r = row ∧ c = i
      · refine removeFrom_keep hz ?_
        obtain ⟨he1, he2⟩ := he
        rw [he1, he2]
        exact hu1 row i col hrow hi2 hcol hic
      · rw [removeFrom_cands_ne he]
        exact hz
    have hkeepC : ∀ z : Futoshiki, T r c ∈ z.cands r c → i ≠ row →
        T r c ∈ (removeFrom z i col (T row col)).cands r c := by
      intro z hz hir
      by_cases he : r = i ∧ c = col
      · refine removeFrom_keep hz ?_
        obtain ⟨he1, he2⟩ := he
        rw [he1, he2]
        exact hu2 i row col hi2 hrow hcol hir
      · rw [removeFrom_cands_ne he]
        exact hz
    unfold uniqStep
    by_cases hir : i ≠ row
    · rw [if_pos hir]
      refine hkeepC _ ?_ hir
      by_cases hic : i ≠ col
      · rw [if_pos hic]
        exact hkeepR _ (hy r c hr hc) hic
      · rw [if_neg hic]
        exact hy r c hr hc
    · rw [if_neg hir]
      by_cases hic : i ≠ col
      · rw [if_pos hic]
        exact hkeepR _ (hy r c hr hc) hic
      · rw [if_neg hic]
        exact hy r c hr hc
  · exact hP

theorem pcRound_keep {p q : Futoshiki} {T : Grid} (hT : IsSolution p T)
    (hst : sameStatic q p)
    (hP : ∀ r c, r < p.size → c < p.size → T r c ∈ q.cands r c) :
    sameStatic (pcRound q).1 p ∧
    ∀ r c, r < p.size → c < p.size → T r c ∈ (pcRound q).1.cands r c := by
  unfold pcRound
  rw [hst.1]
  refine foldl_preserve_mem
    (fun st : Futoshiki × Int => sameStatic st.1 p ∧
      ∀ r c, r < p.size → c < p.size → T r c ∈ st.1.cands r c)
    pcCell _ _ ?_ ⟨hst, hP⟩
  intro st rc hrc hQ
  obtain ⟨hQ1, hQ2⟩ := hQ
  obtain ⟨hr1, hr2⟩ := mem_cellList.mp hrc
  rw [pcCell_eq]
  constructor
  · exact sameStatic_trans
      (sameStatic_trans (process_uniqueness_static _ _ _) (filter_static _ _ _)) hQ1
  · exact process_uniqueness_keep (sameStatic_trans (filter_static _ _ _) hQ1) hT
      (filter_keep hQ1 hT hQ2 hr1 hr2) hr1 hr2

theorem pcIter_keep {p : Futoshiki} {T : Grid} (hT : IsSolution p T) :
    ∀ (fuel : Nat) (q : Futoshiki) (acc : Int),
      sameStatic q p →
      (∀ r c, r < p.size → c < p.size → T r c ∈ q.cands r c) →
      ∀ r c, r < p.size → c < p.size → T r c ∈ (pcIter fuel q acc).1.cands r c := by
  intro fuel
  induction fuel with
  | zero =>
    intro q acc hst hP r c hr hc
    exact hP r c hr hc
  | succ fuel ih =>
    intro q acc hst hP r c hr hc
    rw [pcIter]
    split
    · exact (pcRound_keep hT hst hP).2 r c hr hc
    · exact ih _ _ (pcRound_keep hT hst hP).1 (pcRound_keep hT hst hP).2 r c hr hc

/-- The pre-coloring pass never removes a value that a solution really
uses: after `compute_pc_lists` every in-range cell's candidate list
still contains the solution's value for that cell. -/
theorem compute_preserves_solution {p : Futoshiki} {T : Grid} (hT : IsSolution p T) :
    ∀ r c, r < p.size → c < p.size →
      T r c ∈ (compute_pc_lists p true).1.cands r c := by
  rw [compute_pc_lists_true]
  refine fun r c hr hc => pcIter_keep hT _ _ _ (initCands_static p) ?_ r c hr hc
  intro a b ha hb
  rw [initCands_cands, if_pos ⟨ha, hb⟩]
  by_cases hbset : p.board a b ≠ 0
  · rw [if_pos hbset]
    rw [hT.2.2.2.2.2 a b ha hb hbset]
    exact List.mem_singleton.mpr rfl
  · rw [if_neg hbset]
    have hrg := hT.1 a b ha hb
    simp only [List.mem_map, List.mem_range]
    refine ⟨(T a b).toNat - 1, by omega, by omega⟩

/-- `safe` accepts the solution's value for a board-empty cell whenever
every cell of the working grid holds either its solution value or
EMPTY. -/
theorem safe_for_T {q : Futoshiki} {T : Grid} (hT : IsSolution q T)
    {sol : Grid} {row col : Nat} (hrow : row < q.size) (hcol : col < q.size)
    (hb : q.board row col = 0)
    (hTor : ∀ a b, a < q.size → b < q.size → sol a b = T a b ∨ sol a b = 0) :
    safe q row col sol (T row col) = true := by
  rw [safe_true_iff, if_neg (by simpa using hb)]
  obtain ⟨hrange, hu1, hu2, hh, hv, hpre⟩ := hT
  refine ⟨⟨?_, ?_, ?_, ?_⟩, ?_⟩
  · intro h0 hnz
    rcases hTor row (col - 1) hrow (by omega) with he | he
    · rw [he]
      have hcons := hh row (col - 1) hrow (by omega)
      rwa [show col - 1 + 1 = col by omega] at hcons
    · exact absurd he hnz
  · intro h0 hnz
    rcases hTor row (col + 1) hrow h0 with he | he
    · rw [he]
      exact hh row col hrow h0
    · exact absurd he hnz
  · intro h0 hnz
    rcases hTor (row - 1) col (by omega) hcol with he | he
    · rw [he]
      have hcons := hv (row - 1) col (by omega) hcol
      rwa [show row - 1 + 1 = row by omega] at hcons
    · exact absurd he hnz
  · intro h0 hnz
    rcases hTor (row + 1) col h0 hcol with he | he
    · rw [he]
      exact hv row col h0 hcol
    · exact absurd he hnz
  · intro i hi
    have hpos : (1 : Int) ≤ T row col := (hrange row col hrow hcol).1
    constructor
    · intro hic
      rcases hTor row i hrow hi with he | he
      · rw [he]
        exact hu1 row i col hrow hi hcol hic
      · rw [he]
        omega
    · intro hir
      rcases hTor i col hi hcol with he | he
      · rw [he]
        exact hu2 i row col hi hrow hcol hir
      · rw [he]
        omega

/-- Completeness of the backtracker: if a solution `T` exists whose
values all survive in the candidate lists, then `color_g_seq` succeeds
from any state in which every cell before the current position (and
every pre-set cell) holds its `T`-value and every board-empty cell at or
after it is EMPTY. -/
theorem colorGSeq_complete (q : Futoshiki) (T : Grid) (hT : IsSolution q T)
    (hcands : ∀ r c, r < q.size → c < q.size → q.board r c = 0 →
      T r c ∈ q.cands r c) :
    ∀ (sol : Grid) (row col : Nat),
      col ≤ q.size →
      (∀ r c, r < q.size → c < q.size →
        posIdx q.size r c < posIdx q.size row col → sol r c = T r c) →
      (∀ r c, r < q.size → c < q.size → q.board r c = 0 →
        posIdx q.size row col ≤ posIdx q.size r c → sol r c = 0) →
      (∀ r c, r < q.size → c < q.size → q.board r c ≠ 0 → sol r c = T r c) →
      (colorGSeq q sol row col).1 = true := by
  refine colorGSeq.induct q
    (fun sol row col =>
      col ≤ q.size →
      (∀ r c, r < q.size → c < q.size →
        posIdx q.size r c < posIdx q.size row col → sol r c = T r c) →
      (∀ r c, r < q.size → c < q.size → q.board r c = 0 →
        posIdx q.size row col ≤ posIdx q.size r c → sol r c = 0) →
      (∀ r c, r < q.size → c < q.size → q.board r c ≠ 0 → sol r c = T r c) →
      (colorGSeq q sol row col).1 = true)
    (fun sol row col hcol2 l =>
      row < q.size →
      q.board row col = 0 →
      T row col ∈ l →
      (∀ r c, r < q.size → c < q.size →
        posIdx q.size r c < posIdx q.size row col → sol r c = T r c) →
      (∀ r c, r < q.size → c < q.size → q.board r c = 0 →
        posIdx q.size row col ≤ posIdx q.size r c → sol r c = 0) →
      (∀ r c, r < q.size → c < q.size → q.board r c ≠ 0 → sol r c = T r c) →
      (tryCands q sol row col hcol2 l).1 = true)
    ?_ ?_ ?_ ?_ ?_ ?_ ?_ ?_
  · intro sol row col hr hcol hH1 hH2 hH3
    rw [colorGSeq, dif_pos hr]
  · intro sol row col hr hc2 ih hcol hH1 hH2 hH3
    rw [colorGSeq, dif_neg hr, dif_pos hc2]
    have hce : col = q.size := by omega
    subst hce
    have hpe : posIdx q.size row q.size = posIdx q.size (row + 1) 0 := by
      unfold posIdx; ring
    refine ih (Nat.zero_le _) ?_ ?_ hH3
    · intro r c h1 h2 h3
      exact hH1 r c h1 h2 (by omega)
    · intro r c h1 h2 h3 h4
      exact hH2 r c h1 h2 h3 (by omega)
  · intro sol row col hr hc2 hb ih hcol hH1 hH2 hH3
    rw [colorGSeq, dif_neg hr, dif_neg hc2, if_pos hb]
    have hrow : row < q.size := by omega
    have hcol2 : col < q.size := by omega
    have hpre : T row col = q.board row col := hT.2.2.2.2.2 row col hrow hcol2 hb
    refine ih (by omega) ?_ ?_ ?_
    · intro r c h1 h2 h3
      rw [posIdx_succ] at h3
      by_cases he : r = row ∧ c = col
      · obtain ⟨he1, he2⟩ := he
        rw [he1, he2, upd2_self, ← hpre]
      · have hne : posIdx q.size r c ≠ posIdx q.size row col := fun hq =>
          he (posIdx_inj h2 hcol2 hq)
        rw [upd2_ne he]
        exact hH1 r c h1 h2 (by omega)
    · intro r c h1 h2 h3 h4
      rw [posIdx_succ] at h4
      have hne : ¬(r = row ∧ c = col) := by
        rintro ⟨rfl, rfl⟩
        exact hb h3
      rw [upd2_ne hne]
      exact hH2 r c h1 h2 h3 (by omega)
    · intro r c h1 h2 h3
      by_cases he : r = row ∧ c = col
      · obtain ⟨he1, he2⟩ := he
        rw [he1, he2, upd2_self, ← hpre]
      · rw [upd2_ne he]
        exact hH3 r c h1 h2 h3
  · intro sol row col hr hc2 hb ih hcol hH1 hH2 hH3
    rw [colorGSeq, dif_neg hr, dif_neg hc2, if_neg hb]
    have hbe : q.board row col = 0 := by simpa using hb
    exact ih (by omega) hbe (hcands row col (by omega) (by omega) hbe) hH1 hH2 hH3
  · intro sol row col hcol2 hrow hbe hmem hH1 hH2 hH3
    exact absurd hmem (List.not_mem_nil _)
  · intro sol row col hcol2 color rest hsafe res hres ih hrow hbe hmem hH1 hH2 hH3
    rw [tryCands, if_pos hsafe]
    show (if res.1 then res else
      tryCands q (upd2 res.2 row col 0) row col hcol2 rest).1 = true
    rw [if_pos hres]
    exact hres
  · intro sol row col hcol2 color rest hsafe res hres ih1 ih2 hrow hbe hmem hH1 hH2 hH3
    rw [tryCands, if_pos hsafe]
    show (if res.1 then res else
      tryCands q (upd2 res.2 row col 0) row col hcol2 rest).1 = true
    rw [if_neg hres]
    by_cases hcl : T row col = color
    · exfalso
      subst hcl
      refine hres (ih1 (by omega) ?_ ?_ ?_)
      · intro r c h1 h2 h3
        rw [posIdx_succ] at h3
        by_cases he : r = row ∧ c = col
        · obtain ⟨he1, he2⟩ := he
          rw [he1, he2, upd2_self]
        · have hne : posIdx q.size r c ≠ posIdx q.size row col := fun hq =>
            he (posIdx_inj h2 hcol2 hq)
          rw [upd2_ne he]
          exact hH1 r c h1 h2 (by omega)
      · intro r c h1 h2 h3 h4
        rw [posIdx_succ] at h4
        have hne : ¬(r = row ∧ c = col) := by
          rintro ⟨rfl, rfl⟩
          omega
        rw [upd2_ne hne]
        exact hH2 r c h1 h2 h3 (by omega)
      · intro r c h1 h2 h3
        have hne : ¬(r = row ∧ c = col) := by
          rintro ⟨rfl, rfl⟩
          exact h3 hbe
        rw [upd2_ne hne]
        exact hH3 r c h1 h2 h3
    · have hmem2 : T row col ∈ rest := by
        rcases List.mem_cons.mp hmem with h | h
        · exact absurd h hcl
        · exact h
      have hres2 : (colorGSeq q (upd2 sol row col color) row (col + 1)).1 = false := by
        have h1 : res.1 ≠ true := hres
        exact Bool.not_eq_true _ ▸ (Bool.eq_false_iff.mpr h1)
      have hempty1 : ∀ r c, r < q.size → c < q.size → q.board r c = 0 →
          cellGE row (col + 1) r c → upd2 sol row col color r c = 0 := by
        intro r c h1 h2 h3 h4
        have hne : ¬(r = row ∧ c = col) := by
          rintro ⟨rfl, rfl⟩
          unfold cellGE at h4
          omega
        rw [upd2_ne hne]
        refine hH2 r c h1 h2 h3 ?_
        have h5 := posIdx_le_of_cellGE (n := q.size) (by omega) h4
        rw [posIdx_succ] at h5
        omega
      obtain ⟨r1, r2⟩ := colorGSeq_restore q (upd2 sol row col color) row (col + 1)
        hempty1 hres2
      have hresE : res = colorGSeq q (upd2 sol row col color) row (col + 1) := rfl
      have hpre : ∀ a b, a < q.size → b < q.size → q.board a b ≠ 0 →
          T a b = q.board a b :=
        fun a b ha hb2 hnb => hT.2.2.2.2.2 a b ha hb2 hnb
      have hval : ∀ a b, a < q.size → b < q.size → ¬(a = row ∧ b = col) →
          upd2 res.2 row col 0 a b = sol a b ∨
            (q.board a b ≠ 0 ∧ upd2 res.2 row col 0 a b = q.board a b) := by
        intro a b ha hb2 he
        rw [upd2_ne he, hresE]
        by_cases hb3 : q.board a b = 0
        · rw [r1 a b hb3, upd2_ne he]
          exact Or.inl rfl
        · rcases r2 a b hb3 with hcase | hcase
          · rw [hcase, upd2_ne he]
            exact Or.inl rfl
          · rw [hcase]
            exact Or.inr ⟨hb3, rfl⟩
      refine ih2 hrow hbe hmem2 ?_ ?_ ?_
      · intro r c h1 h2 h3
        have he : ¬(r = row ∧ c = col) := by
          rintro ⟨rfl, rfl⟩
          omega
        rcases hval r c h1 h2 he with hc2 | ⟨hb3, hc2⟩
        · rw [hc2]
          exact hH1 r c h1 h2 h3
        · rw [hc2]
          exact (hpre r c h1 h2 hb3).symm
      · intro r c h1 h2 h3 h4
        by_cases he : r = row ∧ c = col
        · obtain ⟨he1, he2⟩ := he
          rw [he1, he2, upd2_self]
        · rcases hval r c h1 h2 he with hc2 | ⟨hb3, hc2⟩
          · rw [hc2]
            exact hH2 r c h1 h2 h3 h4
          · exact absurd h3 hb3
      · intro r c h1 h2 h3
        have he : ¬(r = row ∧ c = col) := by
          rintro ⟨rfl, rfl⟩
          exact h3 hbe
        rcases hval r c h1 h2 he with hc2 | ⟨hb3, hc2⟩
        · rw [hc2]
          exact hH3 r c h1 h2 h3
        · rw [hc2]
          exact (hpre r c h1 h2 h3).symm
  · intro sol row col hcol2 color rest hsafe ih hrow hbe hmem hH1 hH2 hH3
    rw [tryCands, if_neg hsafe]
    rcases List.mem_cons.mp hmem with hcl | hcl
    · exfalso
      have hTor : ∀ a b, a < q.size → b < q.size → sol a b = T a b ∨ sol a b = 0 := by
        intro a b ha hb2
        by_cases hp2 : q.board a b = 0
        · rcases Nat.lt_or_ge (posIdx q.size a b) (posIdx q.size row col) with h | h
          · exact Or.inl (hH1 a b ha hb2 h)
          · exact Or.inr (hH2 a b ha hb2 hp2 h)
        · exact Or.inl (hH3 a b ha hb2 hp2)
      rw [← hcl] at hsafe
      exact hsafe (safe_for_T hT hrow hcol2 hbe hTor)
    · exact ih hrow hbe hcl hH1 hH2 hH3

/-- The invariant holds on the bare board at position 0 when the
pre-set cells are mutually consistent. -/
theorem Inv_board_zero {p : Futoshiki} (hok : presetsOK p) : Inv p p.board 0 := by
  obtain ⟨u1, u2, u3, u4⟩ := hok
  refine ⟨?_, ?_, ?_, ?_, ?_, ?_, ?_⟩
  · intro r c _ _ _
    rfl
  · intro r c _ _ hb _
    exact hb
  · intro r c c' hr hc hc' hne h1 h2
    exact u1 r c c' hr hc hc' hne (h1.resolve_right (by omega))
      (h2.resolve_right (by omega))
  · intro r r' c hr hr' hc hne h1 h2
    exact u2 r r' c hr hr' hc hne (h1.resolve_right (by omega))
      (h2.resolve_right (by omega))
  · intro r c hr hc h1 h2
    exact u3 r c hr hc (h1.resolve_right (by omega)) (h2.resolve_right (by omega))
  · intro r c hr hc h1 h2
    exact u4 r c hr hc (h1.resolve_right (by omega)) (h2.resolve_right (by omega))
  · intro r c hr hc hb hlt hz
    exact absurd hlt (Nat.not_lt_zero _)

/-- At position `size²` every in-range cell is settled, so the
invariant gives a fully valid grid. -/
theorem validGrid_of_Inv {p : Futoshiki} {g : Grid} (h : Inv p g (p.size * p.size)) :
    validGrid p g := by
  have hall : ∀ r c, r < p.size → c < p.size →
      settled p.size g (p.size * p.size) r c :=
    fun r c hr hc => Or.inr (posIdx_lt_sq hr hc)
  refine ⟨?_, ?_, ?_, ?_, ?_⟩
  · intro r c c' hr hc hc' hne
    exact h.uniqR r c c' hr hc hc' hne (hall r c hr hc) (hall r c' hr hc')
  · intro r r' c hr hr' hc hne
    exact h.uniqC r r' c hr hr' hc hne (hall r c hr hc) (hall r' c hr' hc)
  · intro r c hr hc
    exact h.ineqH r c hr hc (hall r c hr (by omega)) (hall r (c + 1) hr hc)
  · intro r c hr hc
    exact h.ineqV r c hr hc (hall r c (by omega) hc) (hall (r + 1) c hr hc)
  · intro r c hr hc hb
    exact h.presets r c hr hc hb

/-- Claim C2: with mutually consistent pre-set cells whose values lie in
`1..size`, the pre-coloring pass followed by `color_g_seq` from `(0,0)`
on a grid initialized from the board succeeds exactly when the puzzle is
satisfiable.  (Without the extra hypotheses the claim is false, see
`C2_counterexample`.) -/
theorem C2_backtracker_completeness (p : Futoshiki) (hok : presetsOK p)
    (hrange : ∀ r c, r < p.size → c < p.size → p.board r c ≠ 0 →
      1 ≤ p.board r c ∧ p.board r c ≤ (p.size : Int)) :
    ((colorGSeq (compute_pc_lists p true).1 p.board 0 0).1 = true ↔
      Satisfiable p) := by
  have hst := compute_static p
  have hsz : (compute_pc_lists p true).1.size = p.size := hst.1
  have hbd : (compute_pc_lists p true).1.board = p.board := hst.2.1
  constructor
  · intro hsucc
    rw [← hbd] at hsucc
    have hok2 : presetsOK (compute_pc_lists p true).1 := by
      unfold presetsOK
      rw [hsz, hbd, hst.2.2.1, hst.2.2.2]
      exact hok
    have hInv1 : Inv (compute_pc_lists p true).1 (compute_pc_lists p true).1.board
        (posIdx (compute_pc_lists p true).1.size 0 0) :=
      Inv_pos_eq (by unfold posIdx; omega) (Inv_board_zero hok2)
    obtain ⟨hfin, hmem⟩ := colorGSeq_sound (compute_pc_lists p true).1
      (compute_pc_lists p true).1.board 0 0 (Nat.zero_le _) hInv1 hsucc
    refine ⟨(colorGSeq (compute_pc_lists p true).1
      (compute_pc_lists p true).1.board 0 0).2, ?_, ?_⟩
    · intro r c hr hc
      by_cases hb : p.board r c = 0
      · refine compute_cands_range hr hc hb ?_
        exact hmem r c (hsz.symm ▸ hr) (hsz.symm ▸ hc) (hbd.symm ▸ hb)
          (by unfold cellGE; omega)
      · have h1 := hfin.presets r c (hsz.symm ▸ hr) (hsz.symm ▸ hc) (hbd.symm ▸ hb)
        rw [h1, hbd]
        exact hrange r c hr hc hb
    · have hvq := validGrid_of_Inv hfin
      revert hvq
      generalize (colorGSeq (compute_pc_lists p true).1
        (compute_pc_lists p true).1.board 0 0).2 = g
      intro hvq
      unfold validGrid at hvq ⊢
      rw [hsz, hbd, hst.2.2.1, hst.2.2.2] at hvq
      exact hvq
  · rintro ⟨T, hT⟩
    have hmem := compute_preserves_solution hT
    have hTq : IsSolution (compute_pc_lists p true).1 T := by
      obtain ⟨h1, h2⟩ := hT
      constructor
      · rw [hsz]
        exact h1
      · unfold validGrid
        rw [hsz, hbd, hst.2.2.1, hst.2.2.2]
        exact h2
    refine colorGSeq_complete (compute_pc_lists p true).1 T hTq ?_ p.board 0 0
      (Nat.zero_le _) ?_ ?_ ?_
    · intro r c hr hc hb
      exact hmem r c (hsz ▸ hr) (hsz ▸ hc)
    · intro r c h1 h2 h3
      exact absurd h3 (by unfold posIdx; omega)
    · intro r c h1 h2 h3 h4
      rw [← hbd]
      exact h3
    · intro r c h1 h2 h3
      have h4 := hT.2.2.2.2.2 r c (hsz ▸ h1) (hsz ▸ h2) (by rwa [hbd] at h3)
      exact h4.symm

/-- A puzzle whose cells are all pre-set never reaches the candidate
loop: `color_g_seq` just copies the board and reports success. -/
theorem colorGSeq_all_preset (q : Futoshiki)
    (hb : ∀ r c, r < q.size → c < q.size → q.board r c ≠ 0) :
    ∀ (sol : Grid) (row col : Nat), (colorGSeq q sol row col).1 = true := by
  refine colorGSeq.induct q
    (fun sol row col => (colorGSeq q sol row col).1 = true)
    (fun sol row col hcol2 l => row < q.size → q.board row col = 0 →
      (tryCands q sol row col hcol2 l).1 = true)
    ?_ ?_ ?_ ?_ ?_ ?_ ?_ ?_
  · intro sol row col hr
    rw [colorGSeq, dif_pos hr]
  · intro sol row col hr hc2 ih
    rw [colorGSeq, dif_neg hr, dif_pos hc2]
    exact ih
  · intro sol row col hr hc2 hb2 ih
    rw [colorGSeq, dif_neg hr, dif_neg hc2, if_pos hb2]
    exact ih
  · intro sol row col hr hc2 hb2 ih
    rw [colorGSeq, dif_neg hr, dif_neg hc2, if_neg hb2]
    exact ih (by omega) (by simpa using hb2)
  · intro sol row col hcol2 hrow hbe
    exact absurd hbe (hb row col hrow hcol2)
  · intro sol row col hcol2 color rest hsafe res hres ih hrow hbe
    exact absurd hbe (hb row col hrow hcol2)
  · intro sol row col hcol2 color rest hsafe res hres ih1 ih2 hrow hbe
    exact absurd hbe (hb row col hrow hcol2)
  · intro sol row col hcol2 color rest hsafe ih hrow hbe
    exact absurd hbe (hb row col hrow hcol2)

/-- Claim C2 counterexample: on `puzC1` (a 2×2 board with every cell
pre-set to 1, hence unsatisfiable) pre-coloring followed by
`color_g_seq` returns true — the unconditional iff is false. -/
theorem C2_counterexample :
    (colorGSeq (compute_pc_lists puzC1 true).1 puzC1.board 0 0).1 = true ∧
    ¬ Satisfiable puzC1 := by
  constructor
  · refine colorGSeq_all_preset (compute_pc_lists puzC1 true).1 ?_ puzC1.board 0 0
    intro r c _ _
    rw [(compute_static puzC1).2.1]
    simp [puzC1]
  · rintro ⟨g, hrg, hu1, hu2, hh, hv, hpre⟩
    have h1 := hpre 0 0 (by decide) (by decide) (by decide)
    have h2 := hpre 0 1 (by decide) (by decide) (by decide)
    have h3 := hu1 0 0 1 (by decide) (by decide) (by decide) (by decide)
    rw [h1, h2] at h3
    exact h3 rfl

theorem hrange_puzC1w : ∀ r c, r < puzC1w.size → c < puzC1w.size →
    puzC1w.board r c ≠ 0 →
    1 ≤ puzC1w.board r c ∧ puzC1w.board r c ≤ (puzC1w.size : Int) := by
  intro r c _ _ _
  simp [puzC1w]

theorem C2_witness :
    presetsOK puzC1w ∧
    ((colorGSeq (compute_pc_lists puzC1w true).1 puzC1w.board 0 0).1 = true ↔
      Satisfiable puzC1w) :=
  ⟨presetsOK_puzC1w,
    C2_backtracker_completeness puzC1w presetsOK_puzC1w hrange_puzC1w⟩

end Futo
